import Mathlib

/-!
# Verification of the CaDiCaL solver core (`src/solver.hpp`)

A shallow embedding of the CDCL solver core described by the repository's
specification.  The members of `class Solver` become fields of a Lean
structure; the inline member functions of `solver.hpp` (`vidx`, `vlit`,
`val`, `fixed`, `satisfied`) are translated directly.  Machine integers are
modelled as `Int`/`Nat` with explicit reductions modulo `2 ^ 32` (unsigned)
and `2 ^ 64` (`size_t`) where the C code performs conversions; the
assertions guarding `vidx` are modelled by returning `Option`.

The bodies of `propagate`, `backtrack`, `analyze`, `reduce` and `decide`
live in `.cpp` files that are not part of the sources; where a claim needs
them they are modelled from the specification text, as marked by their doc
comments.
-/

namespace CaDiCaL

/-- Smallest value of a 32-bit machine `int` (`INT_MIN` of `climits`). -/
def INT_MIN : Int := -(2 ^ 31)

/-- Largest value of a 32-bit machine `int` (`INT_MAX` of `climits`). -/
def INT_MAX : Int := 2 ^ 31 - 1

/-- A watch: blocking literal paired with (a handle to) the watched clause
(`watch.hpp`).  Clause handles are indices into `Solver.clauses`. -/
structure Watch where
  blit : Int
  clause : Nat
  deriving DecidableEq

/-- A clause (`clause.hpp`): its literals and the metadata the claims
touch (redundant flag, glue, garbage flag). -/
structure Clause where
  lits : List Int
  redundant : Bool
  glue : Nat
  garbage : Bool
  deriving DecidableEq

instance : Inhabited Clause := ⟨⟨[], false, 0, false⟩⟩

/-- The solver state: the members of `class Solver` in `solver.hpp` that
the verified claims are about.  `vtab` is split into the per-variable
fields used here (`Var.level`, `Var.reason`); `vals` and `phases` are the
signed-char arrays indexed by variable index `0 .. max_var`; `wtab` is
indexed by `vlit`. -/
structure Solver where
  max_var : Int
  vals : List Int
  phases : List Int
  vtabLevel : List Nat
  vtabReason : List (Option Nat)
  wtab : List (List Watch)
  unsat : Bool
  level : Nat
  control : List Nat
  trail : List Int
  propagated : Nat
  clauses : List Clause
  conflict : Option Nat
  statsFixed : Nat
  deriving DecidableEq

/-- `vidx` from `solver.hpp`: the variable index `abs (lit)` of a literal.
The function's assertions (`lit` nonzero, `lit != INT_MIN`,
`abs (lit) <= max_var`) are modelled as `Option` guards. -/
def vidx (S : Solver) (lit : Int) : Option Nat :=
  if lit = 0 then none
  else if lit = INT_MIN then none
  else if (lit.natAbs : Int) ≤ S.max_var then some lit.natAbs
  else none

/-- `vlit` from `solver.hpp`: unsigned literal index with LSB denoting the
sign, `(lit < 0) + 2u * (unsigned) vidx (lit)`, computed in 32-bit
unsigned arithmetic. -/
def vlit (S : Solver) (lit : Int) : Option Nat :=
  (vidx S lit).map fun idx => ((if lit < 0 then 1 else 0) + 2 * idx) % 2 ^ 32

/-- `val` from `solver.hpp`: the value of a literal, `-1` false, `0`
unassigned, `1` true; reads `vals [vidx (lit)]` and negates the result
for a negative literal. -/
def val (S : Solver) (lit : Int) : Option Int :=
  (vidx S lit).map fun idx =>
    let res := S.vals.getD idx 0
    if lit < 0 then -res else res

/-- `fixed` from `solver.hpp`: as `val` but restricted to the root-level
value: `res = vals [idx]; if (res && vtab [idx].level) res = 0;` then
negate for a negative literal. -/
def fixed (S : Solver) (lit : Int) : Option Int :=
  (vidx S lit).map fun idx =>
    let r0 := S.vals.getD idx 0
    let res := if r0 ≠ 0 ∧ S.vtabLevel.getD idx 0 ≠ 0 then 0 else r0
    if lit < 0 then -res else res

/-- `satisfied` from `solver.hpp`: `trail.size () == (size_t) max_var`,
with the `int`-to-`size_t` conversion modelled as reduction modulo
`2 ^ 64`. -/
def satisfied (S : Solver) : Bool :=
  S.trail.length == ((S.max_var % 2 ^ 64).toNat)

/-- Decision level recorded for the variable of a literal
(`Var.level` of `var.hpp`). -/
def levelOf (S : Solver) (lit : Int) : Nat := S.vtabLevel.getD lit.natAbs 0

/-- Total version of `val`, as used inside the propagation loop where the
release build performs no assertion checks. -/
def valD (S : Solver) (lit : Int) : Int :=
  if lit < 0 then -(S.vals.getD lit.natAbs 0) else S.vals.getD lit.natAbs 0

/-- Total version of `fixed` (root-level value), used by the modelled
reducer. -/
def fixedD (S : Solver) (lit : Int) : Int :=
  if S.vals.getD lit.natAbs 0 ≠ 0 ∧ S.vtabLevel.getD lit.natAbs 0 ≠ 0
  then 0 else valD S lit

/-- The mathematical `vlit` index (no overflow once `|lit| <= INT_MAX`),
indexing the modelled watch table. -/
def wIdx (lit : Int) : Nat := 2 * lit.natAbs + (if lit < 0 then 1 else 0)

/-- The watch list of a literal (`watches` of `solver.hpp`). -/
def getWatches (S : Solver) (lit : Int) : List Watch :=
  S.wtab.getD (wIdx lit) []

/-- Replace the watch list of a literal. -/
def setWatches (S : Solver) (lit : Int) (ws : List Watch) : Solver :=
  { S with wtab := S.wtab.set (wIdx lit) ws }

/-- `watch_literal` of `solver.hpp`: append a watch with blocking literal
`blit` for clause handle `c` to the watch list of `lit`. -/
def addWatch (S : Solver) (lit blit : Int) (c : Nat) : Solver :=
  setWatches S lit (getWatches S lit ++ [⟨blit, c⟩])

/-- Modelled from the spec: `assign (l, reason)` of §4.5 (propagate.cpp is
not among the sources) — set the value, record the current level, reason
and phase, append to the trail, and increment the fixed counter when at
root level. -/
def assign (S : Solver) (lit : Int) (reason : Option Nat) : Solver :=
  { S with
    vals := S.vals.set lit.natAbs (if lit < 0 then -1 else 1)
    phases := S.phases.set lit.natAbs (if lit < 0 then -1 else 1)
    vtabLevel := S.vtabLevel.set lit.natAbs S.level
    vtabReason := S.vtabReason.set lit.natAbs reason
    trail := S.trail ++ [lit]
    statsFixed := if S.level = 0 then S.statsFixed + 1 else S.statsFixed }

/-- Modelled from the spec: a root assignment as produced by the
fixed-literal flush of `reduce ()` (§4.8) — like `assign` but recorded at
level `0` with null reason. -/
def assignRoot (S : Solver) (lit : Int) : Solver :=
  { S with
    vals := S.vals.set lit.natAbs (if lit < 0 then -1 else 1)
    phases := S.phases.set lit.natAbs (if lit < 0 then -1 else 1)
    vtabLevel := S.vtabLevel.set lit.natAbs 0
    vtabReason := S.vtabReason.set lit.natAbs none
    trail := S.trail ++ [lit]
    statsFixed := S.statsFixed + 1 }

/-- Modelled from the spec: `unassign (l)` of §4.5 (backtrack.cpp is not
among the sources) — clear the assignment, keeping the saved phase; the
VMTF cursor update touches no field modelled here. -/
def unassign (S : Solver) (lit : Int) : Solver :=
  { S with vals := S.vals.set lit.natAbs 0 }

/-- Modelled from the spec: `backtrack (target)` of §4.5 (backtrack.cpp is
not among the sources) — clear the assignments above the target-level
boundary recorded on the control stack, truncate the trail and the control
stack, reset `propagated` to the new trail end and clear `conflict`. -/
def backtrack (S : Solver) (target : Nat) : Solver :=
  let boundary := S.control.getD (target + 1) S.trail.length
  let S1 := (S.trail.drop boundary).foldl unassign S
  { S1 with
    trail := S.trail.take boundary
    control := S.control.take (target + 1)
    level := target
    propagated := (S.trail.take boundary).length
    conflict := none }

/-- Outcome of handling one watch in the propagation inner loop. -/
inductive WAct where
  | keep (S : Solver) (w : Watch)
  | drop (S : Solver)
  | confl (S : Solver) (w : Watch)

/-- Modelled from the spec: steps 1-5 of §4.3 (propagate.cpp is not among
the sources) for a single watch `(blit, C)` on the list of `¬l`: keep the
watch when the blocking literal is true; drop it when the clause is
garbage; swap so that `C [1] = ¬l`; keep it with `C [0]` as new blocking
literal when `C [0]` is true; otherwise search `C [2..]` for a non-false
literal and migrate the watch there; otherwise conflict when `C [0]` is
false, or assign `C [0]` with reason `C`.  `swapNeg` is step 2's swap
ensuring `C [1] = ¬l`. -/
def swapNeg (c : Clause) (negl : Int) : Clause :=
  if c.lits.getD 0 0 = negl
  then { c with lits := (c.lits.set 0 (c.lits.getD 1 0)).set 1 negl }
  else c

def doWatch (S : Solver) (negl : Int) (w : Watch) : WAct :=
  if valD S w.blit = 1 then .keep S w
  else
    let c0 := S.clauses.getD w.clause default
    if c0.garbage then .drop S
    else
      let c := swapNeg c0 negl
      let S1 := { S with clauses := S.clauses.set w.clause c }
      let other := c.lits.getD 0 0
      if valD S1 other = 1 then .keep S1 ⟨other, w.clause⟩
      else
        match (c.lits.drop 2).findIdx? (fun k => valD S1 k != -1) with
        | some j =>
          let k := c.lits.getD (2 + j) 0
          let c2 := { c with lits := (c.lits.set 1 k).set (2 + j) negl }
          let S2 := { S1 with clauses := S1.clauses.set w.clause c2 }
          .drop (addWatch S2 k other w.clause)
        | none =>
          if valD S1 other = -1 then .confl { S1 with conflict := some w.clause } w
          else .keep (assign S1 other (some w.clause)) w

/-- Outcome of scanning a whole watch list. -/
inductive ScanRes where
  | ok (S : Solver)
  | confl (S : Solver)

/-- Modelled from the spec: the scan of `watches (¬l)` in §4.3 — the kept
watches are written back when the list is exhausted; on a conflict the
remaining watches are retained and scanning stops. -/
def scanWatches (negl : Int) : Solver → List Watch → List Watch → ScanRes
  | S, [], kept => .ok (setWatches S negl kept)
  | S, w :: rest, kept =>
    match doWatch S negl w with
    | .keep S1 w1 => scanWatches negl S1 rest (kept ++ [w1])
    | .drop S1 => scanWatches negl S1 rest kept
    | .confl S1 _ => .confl (setWatches S1 negl (kept ++ w :: rest))

/-- Modelled from the spec: the outer loop of `propagate ()` (§4.3) —
advance `propagated` through the trail, scanning the watches of the
negation of each newly assigned literal; `false` on conflict, `true` on
clean exhaustion.  The fuel argument makes the recursion structural;
`none` means the fuel ran out before the loop finished. -/
def propagateAux : Nat → Solver → Option (Bool × Solver)
  | 0, _ => none
  | fuel + 1, S =>
    if S.propagated < S.trail.length then
      let l := S.trail.getD S.propagated 0
      let S1 := { S with propagated := S.propagated + 1 }
      match scanWatches (-l) S1 (getWatches S1 (-l)) [] with
      | .ok S2 => propagateAux fuel S2
      | .confl S2 => some (false, S2)
    else some (true, S)

/-- Modelled from the spec: the level set accumulated during conflict
analysis (§4.4 steps 2 and 6) — each literal's decision level is added to
the set when not already present. -/
def pullLevels (S : Solver) (lits : List Int) : List Nat :=
  lits.foldl (fun acc l => if levelOf S l ∈ acc then acc else acc ++ [levelOf S l]) []

/-- Modelled from the spec: the glue (LBD) passed to
`new_learned_clause` — the size of the accumulated level set. -/
def glueOf (S : Solver) (lits : List Int) : Nat := (pullLevels S lits).length

/-- Modelled from the spec: what `analyze ()` (§4.4, analyze.cpp is not
among the sources) does with the finished learnt clause — an empty clause
sets `unsat`; a unit clause backjumps and becomes a root assignment with
null reason; otherwise the clause is installed with its glue, watched on
its first two literals, and the UIP negation is assigned with the new
clause as reason.  The learnt literals and the backjump level are
parameters; the resolution walk that computes them is constrained by the
step relation's hypotheses. -/
def analyzeOutcome (S : Solver) (learnt : List Int) (jump : Nat) : Solver :=
  match learnt with
  | [] => { S with unsat := true, conflict := none }
  | [l] => assign (backtrack S jump) l none
  | l0 :: l1 :: _ =>
    let g := glueOf S learnt
    let S1 := backtrack S jump
    let ci := S1.clauses.length
    let S2 := { S1 with clauses := S1.clauses ++ [⟨learnt, true, g, false⟩] }
    assign (addWatch (addWatch S2 l0 l1 ci) l1 l0 ci) l0 (some ci)

/-- Modelled from the spec: `decide ()` (§4.6, decide.cpp is not among the
sources) — push a new decision level whose control entry records the
current trail end, then assign the decision literal with null reason; the
literal chosen by the VMTF walk and phase saving is a parameter. -/
def decideOp (S : Solver) (lit : Int) : Solver :=
  assign { S with level := S.level + 1, control := S.control ++ [S.trail.length] }
    lit none

/-- Mark one clause garbage. -/
def markGarbage (S : Solver) (ci : Nat) : Solver :=
  { S with clauses := S.clauses.set ci { S.clauses.getD ci default with garbage := true } }

/-- Modelled from the spec: the fixed-literal flush of `reduce ()` (§4.8
step 2, reduce.cpp is not among the sources) applied to clause `ci` — a
clause containing a root-satisfied literal is marked garbage; otherwise
its root-falsified literals are removed; a clause flushed to a unit
becomes a root assignment (when its literal is still unassigned, per the
`assign` precondition) and a clause flushed to nothing sets `unsat`. -/
def flushStep (S : Solver) (ci : Nat) : Solver :=
  let c := S.clauses.getD ci default
  if c.garbage then S
  else if c.lits.any (fun l => fixedD S l == 1) then markGarbage S ci
  else
    let nl := c.lits.filter (fun l => fixedD S l != -1)
    let S1 := { S with clauses := S.clauses.set ci { c with lits := nl } }
    match nl with
    | [] => { markGarbage S1 ci with unsat := true }
    | [l] =>
      if valD S1 l = 0 then assignRoot (markGarbage S1 ci) l
      else markGarbage S1 ci
    | _ => S1

/-- Insert the two watches of one indexed clause into a watch table
(`watch_clause` of clause.cpp, modelled from the spec §4.2). -/
def watchClauseInto (wt : List (List Watch)) (p : Nat × Clause) : List (List Watch) :=
  match p.2.lits with
  | l0 :: l1 :: _ =>
    if p.2.garbage then wt
    else
      let wt1 := wt.set (wIdx l0) (wt.getD (wIdx l0) [] ++ [⟨l1, p.1⟩])
      wt1.set (wIdx l1) (wt1.getD (wIdx l1) [] ++ [⟨l0, p.1⟩])
  | _ => wt

/-- Modelled from the spec: the rebuild of the watch tables
(`setup_watches`, §4.8 step 6) — every non-garbage clause of size at least
two is watched by its first two literals, each with the other as blocking
literal. -/
def setupWatches (S : Solver) : Solver :=
  { S with wtab :=
      S.clauses.enum.foldl watchClauseInto (List.replicate S.wtab.length []) }

/-- Modelled from the spec: `reduce ()` (§4.8, reduce.cpp is not among the
sources) — reasons are protected (a hypothesis of the step relation),
every clause passes the fixed-literal flush, the useless redundant clauses
chosen by the scoring pass (a parameter) are marked garbage, and the watch
tables are rebuilt.  Storage compaction only moves bytes and is not
modelled. -/
def reduceOp (S : Solver) (useless : List Nat) : Solver :=
  setupWatches (useless.foldl markGarbage
    ((List.range S.clauses.length).foldl flushStep S))

/-- Modelled from the spec: `restart ()` (§4.7, restart.cpp is not among
the sources) — backtrack to the reuse level computed by `reuse_trail ()`
(a parameter). -/
def restartOp (S : Solver) (reuse : Nat) : Solver := backtrack S reuse

/-- Result of the search loop (§4.9). -/
inductive Res where
  | SAT
  | UNSAT
  | UNKNOWN
  deriving DecidableEq

/-- The heuristic choices one iteration of the search loop consumes: the
propagation fuel, the analyzer's learnt clause and backjump level, the
restart and reduce triggers with their parameters, the decision literal,
and the externally set termination flag. -/
structure Choice where
  pfuel : Nat
  learnt : List Int
  jump : Nat
  doRestart : Bool
  reuse : Nat
  doReduce : Bool
  useless : List Nat
  dlit : Int
  terminate : Bool

/-- Modelled from the spec: the CDCL search loop of §4.9, driven by a
stream of heuristic choices; `none` means the fuel ran out. -/
def searchLoop : Nat → (Nat → Choice) → Nat → Solver → Option Res
  | 0, _, _, _ => none
  | fuel + 1, orc, t, S =>
    let ch := orc t
    match propagateAux ch.pfuel S with
    | none => none
    | some (false, S1) =>
      if S1.level = 0 then some .UNSAT
      else searchLoop fuel orc (t + 1) (analyzeOutcome S1 ch.learnt ch.jump)
    | some (true, S1) =>
      if S1.unsat then some .UNSAT
      else if satisfied S1 then some .SAT
      else if ch.terminate then some .UNKNOWN
      else if ch.doRestart then searchLoop fuel orc (t + 1) (restartOp S1 ch.reuse)
      else if ch.doReduce then searchLoop fuel orc (t + 1) (reduceOp S1 ch.useless)
      else searchLoop fuel orc (t + 1) (decideOp S1 ch.dlit)

/-- One step of the solver core: each constructor is one operation of the
search loop, with the spec's preconditions as hypotheses (assigned
literals must be unassigned and in range, backjump targets must not
exceed the current level, reduce must not garbage a reason clause). -/
inductive Step : Solver → Solver → Prop where
  | prop {S S' : Solver} (fuel : Nat) (b : Bool) :
      propagateAux fuel S = some (b, S') → Step S S'
  | analyze {S : Solver} (learnt : List Int) (jump : Nat) :
      jump ≤ S.level →
      (∀ l ∈ learnt, l.natAbs ≤ S.max_var.toNat) →
      (learnt ≠ [] → valD (backtrack S jump) (learnt.getD 0 0) = 0) →
      Step S (analyzeOutcome S learnt jump)
  | bt {S : Solver} (k : Nat) : k ≤ S.level → Step S (backtrack S k)
  | restart {S : Solver} (k : Nat) : k ≤ S.level → Step S (restartOp S k)
  | reduce {S : Solver} (useless : List Nat) :
      (∀ ci ∈ useless, ∀ v, S.vtabReason.getD v none ≠ some ci) →
      Step S (reduceOp S useless)
  | decide {S : Solver} (lit : Int) :
      valD S lit = 0 → lit.natAbs ≤ S.max_var.toNat →
      Step S (decideOp S lit)

/-- Modelled from the spec: the initial solving state for `max_var = n`
after `init_variables ()` and clause ingestion — no assignments, the root
control entry at trail position `0`, the given clause list, and the watch
tables set up. -/
def initState (n : Nat) (cls : List Clause) : Solver :=
  setupWatches
    { max_var := n
      vals := List.replicate (n + 1) 0
      phases := List.replicate (n + 1) (-1)
      vtabLevel := List.replicate (n + 1) 0
      vtabReason := List.replicate (n + 1) none
      wtab := List.replicate (2 * (n + 1)) []
      unsat := false
      level := 0
      control := [0]
      trail := []
      propagated := 0
      clauses := cls
      conflict := none
      statsFixed := 0 }

/-- Solver states reachable by the core operations from an initial state
with valid clause literals. -/
inductive Reachable : Solver → Prop where
  | base (n : Nat) (cls : List Clause)
      (h : ∀ c ∈ cls, ∀ l ∈ c.lits, l.natAbs ≤ n) :
      Reachable (initState n cls)
  | step (S S' : Solver) : Reachable S → Step S S' → Reachable S'

/-- The control-stack and trail invariants of §3 that claims about
reachable states rest on, stated over the modelled state: one control
entry per level; entry `0` is the root at position `0`; entries point into
the trail, strictly increasing from level `1` on; everything before the
entry of level `k` was assigned at a level below `k`; the literal at the
entry of level `k ≥ 1` is the first literal of level `k`; trail literals
are assigned, at most at the current level, over distinct variables in
range; the value and level tables have `max_var + 1` entries; clause
literals are in range. -/
structure Inv (S : Solver) : Prop where
  ctrl_len : S.control.length = S.level + 1
  ctrl_zero : S.control.getD 0 0 = 0
  ctrl_le : ∀ k, k < S.control.length → S.control.getD k 0 ≤ S.trail.length
  ctrl_strict : ∀ j k, 1 ≤ j → j < k → k < S.control.length →
    S.control.getD j 0 < S.control.getD k 0
  before_lt : ∀ k, k < S.control.length → ∀ i, i < S.control.getD k 0 →
    levelOf S (S.trail.getD i 0) < k
  dec_at : ∀ k, 1 ≤ k → k < S.control.length →
    S.control.getD k 0 < S.trail.length ∧
    levelOf S (S.trail.getD (S.control.getD k 0) 0) = k
  lvl_le : ∀ l ∈ S.trail, levelOf S l ≤ S.level
  assigned : ∀ l ∈ S.trail, valD S l = 1
  nodup : (S.trail.map Int.natAbs).Nodup
  vals_len : S.vals.length = S.max_var.toNat + 1
  lvls_len : S.vtabLevel.length = S.max_var.toNat + 1
  vals_range : ∀ v ∈ S.vals, v = -1 ∨ v = 0 ∨ v = 1
  cls_ok : ∀ c ∈ S.clauses, ∀ l ∈ c.lits, l.natAbs ≤ S.max_var.toNat
  trail_ok : ∀ l ∈ S.trail, l.natAbs ≤ S.max_var.toNat

/-- A small concrete solver state used by the witnesses: two variables,
variable 1 assigned true at root, variable 2 unassigned. -/
def exS : Solver where
  max_var := 2
  vals := [0, 1, 0]
  phases := [-1, 1, -1]
  vtabLevel := [0, 0, 0]
  vtabReason := [none, none, none]
  wtab := [[], [], [], [], [], []]
  unsat := false
  level := 0
  control := [0]
  trail := [1]
  propagated := 1
  clauses := []
  conflict := none
  statsFixed := 1

/-- On a valid literal `vidx` succeeds and returns `natAbs`. -/
theorem vidx_eq (S : Solver) (l : Int) (h0 : l ≠ 0) (hm : l ≠ INT_MIN)
    (hr : (l.natAbs : Int) ≤ S.max_var) : vidx S l = some l.natAbs := by
  simp only [vidx, if_neg h0, if_neg hm, if_pos hr]

theorem val_char (S : Solver) (l : Int) (hval : vidx S l = some l.natAbs) :
    val S l = some (if l < 0 then -(S.vals.getD l.natAbs 0)
      else S.vals.getD l.natAbs 0) := by
  rw [val, hval]; rfl

theorem fixed_char (S : Solver) (l : Int) (hval : vidx S l = some l.natAbs) :
    fixed S l = some (if l < 0 then
      -(if S.vals.getD l.natAbs 0 ≠ 0 ∧ S.vtabLevel.getD l.natAbs 0 ≠ 0
        then 0 else S.vals.getD l.natAbs 0)
      else (if S.vals.getD l.natAbs 0 ≠ 0 ∧ S.vtabLevel.getD l.natAbs 0 ≠ 0
        then 0 else S.vals.getD l.natAbs 0)) := by
  rw [fixed, hval]; rfl

theorem vlit_char (S : Solver) (l : Int) (hval : vidx S l = some l.natAbs) :
    vlit S l = some (((if l < 0 then 1 else 0) + 2 * l.natAbs) % 2 ^ 32) := by
  rw [vlit, hval]; rfl

theorem natAbs_le_of_int_le (l : Int) (m : Int) (h : (l.natAbs : Int) ≤ m)
    (hM : m ≤ INT_MAX) : l.natAbs ≤ 2 ^ 31 - 1 := by
  have := le_trans h hM
  simp only [INT_MAX] at this
  omega

theorem neg_ne_int_min (l : Int) (hr : l.natAbs ≤ 2 ^ 31 - 1) :
    -l ≠ INT_MIN := by
  intro h
  simp only [INT_MIN] at h
  omega

theorem getD_mem_or_default (xs : List Int) (i : Nat) :
    xs.getD i 0 ∈ xs ∨ xs.getD i 0 = 0 := by
  by_cases h : i < xs.length
  · left
    rw [List.getD_eq_getElem xs 0 h]
    exact xs.getElem_mem h
  · right
    rw [List.getD_eq_default xs 0 (le_of_not_lt h)]

/-- C2: for every literal `l` with `0 < |l| <= max_var` and
`l != INT_MIN`, `val (l)` returns an element of `{-1, 0, 1}` read from the
value table at index `|l|` (negated exactly when `l < 0`), and
`val (-l) = -val (l)`. -/
theorem val_table_and_negation (S : Solver) (l : Int) (h0 : l ≠ 0)
    (hm : l ≠ INT_MIN) (hr : (l.natAbs : Int) ≤ S.max_var)
    (hM : S.max_var ≤ INT_MAX)
    (hv : ∀ x ∈ S.vals, x = -1 ∨ x = 0 ∨ x = 1) :
    (∃ r, val S l = some r ∧ (r = -1 ∨ r = 0 ∨ r = 1) ∧
      (0 < l → r = S.vals.getD l.natAbs 0) ∧
      (l < 0 → r = -(S.vals.getD l.natAbs 0))) ∧
    val S (-l) = (val S l).map (fun r => -r) := by
  have habs : l.natAbs ≤ 2 ^ 31 - 1 := natAbs_le_of_int_le l S.max_var hr hM
  have hm' : -l ≠ INT_MIN := neg_ne_int_min l habs
  have h0' : -l ≠ 0 := by intro h; exact h0 (by omega)
  have hr' : ((-l).natAbs : Int) ≤ S.max_var := by
    rwa [Int.natAbs_neg]
  have hval : vidx S l = some l.natAbs := vidx_eq S l h0 hm hr
  have hval' : vidx S (-l) = some (-l).natAbs := vidx_eq S (-l) h0' hm' hr'
  have hmem : S.vals.getD l.natAbs 0 = -1 ∨ S.vals.getD l.natAbs 0 = 0 ∨
      S.vals.getD l.natAbs 0 = 1 := by
    rcases getD_mem_or_default S.vals l.natAbs with h | h
    · exact hv _ h
    · right; left; exact h
  have hvc := val_char S l hval
  have hvc' : val S (-l) = some (if -l < 0 then -(S.vals.getD l.natAbs 0)
      else S.vals.getD l.natAbs 0) := by
    have := val_char S (-l) hval'
    rwa [Int.natAbs_neg] at this
  constructor
  · refine ⟨if l < 0 then -(S.vals.getD l.natAbs 0) else S.vals.getD l.natAbs 0,
      hvc, ?_, ?_, ?_⟩
    · rcases hmem with h | h | h <;> rw [h] <;> split <;> decide
    · intro hpos
      rw [if_neg (by omega : ¬ l < 0)]
    · intro hneg
      rw [if_pos hneg]
  · rw [hvc, hvc']
    by_cases hl : l < 0
    · rw [if_neg (by omega : ¬ -l < 0), if_pos hl, Option.map_some', neg_neg]
    · rw [if_pos (by omega : -l < 0), if_neg hl, Option.map_some']

/-- C2 witness: the theorem instantiated at the concrete state `exS` and
literal `1`. -/
theorem val_table_and_negation_witness :
    (∃ r, val exS 1 = some r ∧ (r = -1 ∨ r = 0 ∨ r = 1) ∧
      ((0 : Int) < 1 → r = exS.vals.getD (1 : Int).natAbs 0) ∧
      ((1 : Int) < 0 → r = -(exS.vals.getD (1 : Int).natAbs 0))) ∧
    val exS (-1) = (val exS 1).map (fun r => -r) :=
  val_table_and_negation exS 1 (by decide) (by decide) (by decide)
    (by decide) (by decide)

/-- C3: for every literal `l` with `0 < |l| <= max_var` and
`l != INT_MIN`, the index `vlit` computes for literal-indexed arrays is
`2 * |l| + 1` for `l < 0` and `2 * |l|` for `l > 0`. -/
theorem vlit_encoding (S : Solver) (l : Int) (h0 : l ≠ 0)
    (hm : l ≠ INT_MIN) (hr : (l.natAbs : Int) ≤ S.max_var)
    (hM : S.max_var ≤ INT_MAX) :
    vlit S l = some (if l < 0 then 2 * l.natAbs + 1 else 2 * l.natAbs) := by
  have habs : l.natAbs ≤ 2 ^ 31 - 1 := natAbs_le_of_int_le l S.max_var hr hM
  have hval : vidx S l = some l.natAbs := vidx_eq S l h0 hm hr
  have hlt : (if l < 0 then 1 else 0) + 2 * l.natAbs < 2 ^ 32 := by
    split <;> omega
  rw [vlit_char S l hval, Nat.mod_eq_of_lt hlt]
  by_cases hl : l < 0
  · rw [if_pos hl, if_pos hl, Option.some_inj]
    omega
  · rw [if_neg hl, if_neg hl, Option.some_inj]
    omega

/-- C3 witness: the theorem instantiated at `exS` and literal `-2`. -/
theorem vlit_encoding_witness :
    vlit exS (-2) =
      some (if (-2 : Int) < 0 then 2 * (-2 : Int).natAbs + 1
            else 2 * (-2 : Int).natAbs) :=
  vlit_encoding exS (-2) (by decide) (by decide) (by decide) (by decide)

/-- C4: `satisfied ()` returns true if and only if `trail.size ()` equals
`max_var`. -/
theorem satisfied_iff (S : Solver) (h0 : 0 ≤ S.max_var)
    (hM : S.max_var ≤ INT_MAX) :
    satisfied S = true ↔ (S.trail.length : Int) = S.max_var := by
  have hmod : S.max_var % 2 ^ 64 = S.max_var := by
    apply Int.emod_eq_of_lt h0
    simp only [INT_MAX] at hM
    omega
  rw [satisfied, beq_iff_eq, hmod]
  omega

/-- C4 witness: the theorem instantiated at `exS`, where the trail has one
literal and `max_var = 2`. -/
theorem satisfied_iff_witness :
    satisfied exS = true ↔ (exS.trail.length : Int) = exS.max_var :=
  satisfied_iff exS (by decide) (by decide)

/-- C9: under the precondition `l != 0`, `l != INT_MIN`,
`|l| <= max_var`, every assertion in `vidx` holds (it returns an index
between `1` and `max_var`) and every array access of `val` / `fixed` /
`var` / `watches` is within the bounds of the tables, whose sizes are
`max_var + 1` entries (`vals`, `vtab`) and `2 * (max_var + 1)` entries
(`wtab`). -/
theorem literal_access_safe (S : Solver) (l : Int) (h0 : l ≠ 0)
    (hm : l ≠ INT_MIN) (hr : (l.natAbs : Int) ≤ S.max_var)
    (hM : S.max_var ≤ INT_MAX)
    (hvals : S.vals.length = S.max_var.toNat + 1)
    (hvt : S.vtabLevel.length = S.max_var.toNat + 1)
    (hw : S.wtab.length = 2 * (S.max_var.toNat + 1)) :
    ∃ idx, vidx S l = some idx ∧ 1 ≤ idx ∧ (idx : Int) ≤ S.max_var ∧
      idx < S.vals.length ∧ idx < S.vtabLevel.length ∧
      ∃ w, vlit S l = some w ∧ w < S.wtab.length := by
  have hval : vidx S l = some l.natAbs := vidx_eq S l h0 hm hr
  have habs : l.natAbs ≤ 2 ^ 31 - 1 := natAbs_le_of_int_le l S.max_var hr hM
  have h1 : 1 ≤ l.natAbs := by
    rcases Nat.eq_zero_or_pos l.natAbs with h | h
    · exact absurd (Int.natAbs_eq_zero.mp h) h0
    · exact h
  have hlt : (if l < 0 then 1 else 0) + 2 * l.natAbs < 2 ^ 32 := by
    split <;> omega
  refine ⟨l.natAbs, hval, h1, hr, ?_, ?_, ?_⟩
  · omega
  · omega
  · refine ⟨(if l < 0 then 1 else 0) + 2 * l.natAbs, ?_, ?_⟩
    · rw [vlit_char S l hval, Nat.mod_eq_of_lt hlt]
    · rw [hw]
      split <;> omega

/-- C9 witness: the theorem instantiated at `exS` and literal `-2`. -/
theorem literal_access_safe_witness :
    ∃ idx, vidx exS (-2) = some idx ∧ 1 ≤ idx ∧ (idx : Int) ≤ exS.max_var ∧
      idx < exS.vals.length ∧ idx < exS.vtabLevel.length ∧
      ∃ w, vlit exS (-2) = some w ∧ w < exS.wtab.length :=
  literal_access_safe exS (-2) (by decide) (by decide) (by decide)
    (by decide) (by decide) (by decide) (by decide)

/-- C10: `fixed (l)` returns `val (l)` when the variable `|l|` is assigned
at decision level `0`, returns `0` otherwise, and a nonzero result implies
the result equals `val (l)` and the variable's recorded level is `0`. -/
theorem fixed_root_value (S : Solver) (l : Int) (h0 : l ≠ 0)
    (hm : l ≠ INT_MIN) (hr : (l.natAbs : Int) ≤ S.max_var) :
    (S.vals.getD l.natAbs 0 ≠ 0 → S.vtabLevel.getD l.natAbs 0 = 0 →
      fixed S l = val S l) ∧
    (S.vals.getD l.natAbs 0 = 0 ∨ S.vtabLevel.getD l.natAbs 0 ≠ 0 →
      fixed S l = some 0) ∧
    (∀ r, fixed S l = some r → r ≠ 0 →
      fixed S l = val S l ∧ S.vtabLevel.getD l.natAbs 0 = 0) := by
  have hval : vidx S l = some l.natAbs := vidx_eq S l h0 hm hr
  rw [fixed_char S l hval, val_char S l hval]
  generalize S.vals.getD l.natAbs 0 = a
  generalize S.vtabLevel.getD l.natAbs 0 = b
  refine ⟨?_, ?_, ?_⟩
  · intro ha hb0
    have hcond : ¬(a ≠ 0 ∧ b ≠ 0) := fun hx => hx.2 hb0
    rw [if_neg hcond]
  · intro h
    by_cases ha : a = 0
    · have hcond : ¬(a ≠ 0 ∧ b ≠ 0) := fun hx => hx.1 ha
      rw [if_neg hcond, ha]
      split <;> norm_num
    · have hb : b ≠ 0 := h.resolve_left ha
      rw [if_pos (show a ≠ 0 ∧ b ≠ 0 from ⟨ha, hb⟩)]
      split <;> norm_num
  · intro r hr0 hrne
    by_cases hcond : a ≠ 0 ∧ b ≠ 0
    · exfalso
      apply hrne
      rw [if_pos hcond] at hr0
      have hz : (if l < 0 then -(0 : Int) else 0) = r := Option.some_inj.mp hr0
      rw [← hz]
      split <;> norm_num
    · have h2 : (if a ≠ 0 ∧ b ≠ 0 then (0 : Int) else a) = a := if_neg hcond
      rw [h2]
      rw [h2] at hr0
      have hra : (if l < 0 then -a else a) = r := Option.some_inj.mp hr0
      have ha : a ≠ 0 := by
        intro h0a
        apply hrne
        rw [← hra, h0a]
        split <;> norm_num
      refine ⟨rfl, ?_⟩
      by_contra hb
      exact hcond ⟨ha, hb⟩

/-- C10 witness: the theorem instantiated at `exS` and literal `1`
(variable 1 is assigned true at root in `exS`). -/
theorem fixed_root_value_witness :
    (exS.vals.getD (1 : Int).natAbs 0 ≠ 0 →
      exS.vtabLevel.getD (1 : Int).natAbs 0 = 0 →
      fixed exS 1 = val exS 1) ∧
    (exS.vals.getD (1 : Int).natAbs 0 = 0 ∨
      exS.vtabLevel.getD (1 : Int).natAbs 0 ≠ 0 →
      fixed exS 1 = some 0) ∧
    (∀ r, fixed exS 1 = some r → r ≠ 0 →
      fixed exS 1 = val exS 1 ∧ exS.vtabLevel.getD (1 : Int).natAbs 0 = 0) :=
  fixed_root_value exS 1 (by decide) (by decide) (by decide)

theorem getD_set_self {α : Type} (xs : List α) (i : Nat) (v d : α)
    (h : i < xs.length) : (xs.set i v).getD i d = v := by
  rw [List.getD_eq_getElem?_getD, List.getElem?_set_self (by omega)]
  rfl

theorem getD_set_of_ne {α : Type} (xs : List α) (i j : Nat) (v d : α)
    (h : i ≠ j) : (xs.set i v).getD j d = xs.getD j d := by
  rw [List.getD_eq_getElem?_getD, List.getElem?_set_ne h,
    ← List.getD_eq_getElem?_getD]

theorem getD_append_left {α : Type} (xs ys : List α) (i : Nat) (d : α)
    (h : i < xs.length) : (xs ++ ys).getD i d = xs.getD i d := by
  rw [List.getD_eq_getElem?_getD, List.getElem?_append, if_pos h,
    ← List.getD_eq_getElem?_getD]

theorem getD_append_len {α : Type} (xs : List α) (y d : α) :
    (xs ++ [y]).getD xs.length d = y := by
  rw [List.getD_eq_getElem?_getD, List.getElem?_append,
    if_neg (by omega), Nat.sub_self]
  rfl

theorem getD_take_of_lt {α : Type} (xs : List α) (n i : Nat) (d : α)
    (h : i < n) : (xs.take n).getD i d = xs.getD i d := by
  rw [List.getD_eq_getElem?_getD, List.getElem?_take, if_pos h,
    ← List.getD_eq_getElem?_getD]

theorem getD_oob {α : Type} (xs : List α) (i : Nat) (d : α)
    (h : xs.length ≤ i) : xs.getD i d = d := by
  rw [List.getD_eq_getElem?_getD, List.getElem?_eq_none h]
  rfl

theorem getD_set_zero (xs : List Int) (i : Nat) : (xs.set i 0).getD i 0 = 0 := by
  by_cases h : i < xs.length
  · exact getD_set_self xs i 0 0 h
  · exact getD_oob _ i 0 (by rw [List.length_set]; omega)

/-- Fields of the state untouched by a fold of `unassign`. -/
theorem foldl_unassign_frame (ls : List Int) (S : Solver) :
    (ls.foldl unassign S).phases = S.phases ∧
    (ls.foldl unassign S).trail = S.trail ∧
    (ls.foldl unassign S).control = S.control ∧
    (ls.foldl unassign S).level = S.level ∧
    (ls.foldl unassign S).vtabLevel = S.vtabLevel ∧
    (ls.foldl unassign S).conflict = S.conflict ∧
    (ls.foldl unassign S).propagated = S.propagated ∧
    (ls.foldl unassign S).max_var = S.max_var ∧
    (ls.foldl unassign S).unsat = S.unsat ∧
    (ls.foldl unassign S).statsFixed = S.statsFixed ∧
    (ls.foldl unassign S).clauses = S.clauses ∧
    (ls.foldl unassign S).vals.length = S.vals.length ∧
    (ls.foldl unassign S).vtabReason = S.vtabReason ∧
    (ls.foldl unassign S).wtab = S.wtab := by
  induction ls generalizing S with
  | nil =>
    exact ⟨rfl, rfl, rfl, rfl, rfl, rfl, rfl, rfl, rfl, rfl, rfl, rfl, rfl, rfl⟩
  | cons x xs ih =>
    have h := ih (unassign S x)
    simpa [unassign, List.length_set] using h

/-- Entries already cleared stay cleared through a fold of `unassign`. -/
theorem foldl_unassign_keeps_zero (ls : List Int) (S : Solver) (i : Nat)
    (h : S.vals.getD i 0 = 0) : (ls.foldl unassign S).vals.getD i 0 = 0 := by
  induction ls generalizing S with
  | nil => exact h
  | cons x xs ih =>
    apply ih
    by_cases hx : x.natAbs = i
    · subst hx
      exact getD_set_zero S.vals x.natAbs
    · rw [unassign]
      show (S.vals.set x.natAbs 0).getD i 0 = 0
      rw [getD_set_of_ne S.vals x.natAbs i 0 0 hx]
      exact h

/-- A fold of `unassign` clears the value of every literal in the list. -/
theorem foldl_unassign_clears (ls : List Int) (S : Solver) (l : Int)
    (h : l ∈ ls) : (ls.foldl unassign S).vals.getD l.natAbs 0 = 0 := by
  induction ls generalizing S with
  | nil => cases h
  | cons x xs ih =>
    rcases List.mem_cons.mp h with rfl | h2
    · exact foldl_unassign_keeps_zero xs (unassign S l) l.natAbs
        (getD_set_zero S.vals l.natAbs)
    · exact ih (unassign S x) h2

/-- A fold of `unassign` over literals whose variables all differ from the
variable of `x` leaves the value of `x` unchanged. -/
theorem foldl_unassign_other (ls : List Int) (S : Solver) (x : Int)
    (h : ∀ d ∈ ls, d.natAbs ≠ x.natAbs) :
    (ls.foldl unassign S).vals.getD x.natAbs 0 = S.vals.getD x.natAbs 0 := by
  induction ls generalizing S with
  | nil => rfl
  | cons d ds ih =>
    rw [List.foldl_cons, ih (unassign S d) (fun y hy => h y (List.mem_cons.mpr (Or.inr hy)))]
    show (S.vals.set d.natAbs 0).getD x.natAbs 0 = S.vals.getD x.natAbs 0
    exact getD_set_of_ne S.vals d.natAbs x.natAbs 0 0 (h d (List.mem_cons_self d ds))

/-- C5: after `backtrack (k)` with `0 ≤ k ≤ level`: no literal left on the
trail has decision level above `k`; every removed literal's value is
cleared to unassigned while the saved phases are untouched; `propagated`
equals the new trail size; and `conflict` is null. -/
theorem backtrack_effect (S : Solver) (k : Nat) (hk : k ≤ S.level)
    (hlay : ∀ i, i < S.control.getD (k + 1) S.trail.length →
      levelOf S (S.trail.getD i 0) ≤ k) :
    (∀ i, i < (backtrack S k).trail.length →
      levelOf (backtrack S k) ((backtrack S k).trail.getD i 0) ≤ k) ∧
    (∀ l ∈ S.trail.drop (S.control.getD (k + 1) S.trail.length),
      (backtrack S k).vals.getD l.natAbs 0 = 0) ∧
    (backtrack S k).phases = S.phases ∧
    (backtrack S k).propagated = (backtrack S k).trail.length ∧
    (backtrack S k).conflict = none := by
  have hfr := foldl_unassign_frame
    (S.trail.drop (S.control.getD (k + 1) S.trail.length)) S
  have hlvl : (backtrack S k).vtabLevel = S.vtabLevel := hfr.2.2.2.2.1
  refine ⟨?_, ?_, ?_, ?_, ?_⟩
  · intro i hi
    have htr : (backtrack S k).trail
        = S.trail.take (S.control.getD (k + 1) S.trail.length) := rfl
    rw [htr] at hi ⊢
    rw [List.length_take] at hi
    have hib : i < S.control.getD (k + 1) S.trail.length := lt_of_lt_of_le hi (min_le_left _ _)
    rw [getD_take_of_lt S.trail _ i 0 hib]
    have hx := hlay i hib
    simp only [levelOf] at hx ⊢
    rw [hlvl]
    exact hx
  · intro l hl
    exact foldl_unassign_clears _ S l hl
  · exact hfr.1
  · rfl
  · rfl

/-- A concrete state at decision level 1 used by the `backtrack` witness:
variable 1 fixed true at root, variable 2 decided false at level 1. -/
def exS2 : Solver where
  max_var := 2
  vals := [0, 1, -1]
  phases := [-1, 1, -1]
  vtabLevel := [0, 0, 1]
  vtabReason := [none, none, none]
  wtab := [[], [], [], [], [], []]
  unsat := false
  level := 1
  control := [0, 1]
  trail := [1, -2]
  propagated := 2
  clauses := []
  conflict := none
  statsFixed := 1

/-- C5 witness: the theorem instantiated at `exS2` and target level `0`. -/
theorem backtrack_effect_witness :
    (∀ i, i < (backtrack exS2 0).trail.length →
      levelOf (backtrack exS2 0) ((backtrack exS2 0).trail.getD i 0) ≤ 0) ∧
    (∀ l ∈ exS2.trail.drop (exS2.control.getD (0 + 1) exS2.trail.length),
      (backtrack exS2 0).vals.getD l.natAbs 0 = 0) ∧
    (backtrack exS2 0).phases = exS2.phases ∧
    (backtrack exS2 0).propagated = (backtrack exS2 0).trail.length ∧
    (backtrack exS2 0).conflict = none :=
  backtrack_effect exS2 0 (by decide) (by decide)

/-- The add-if-absent fold computes a duplicate-free list with the same
elements as its input appended to the accumulator. -/
theorem insertFold_spec (xs : List Nat) (acc : List Nat) (h : acc.Nodup) :
    (xs.foldl (fun a v => if v ∈ a then a else a ++ [v]) acc).Nodup ∧
    (xs.foldl (fun a v => if v ∈ a then a else a ++ [v]) acc).toFinset
      = acc.toFinset ∪ xs.toFinset := by
  induction xs generalizing acc with
  | nil => simp [h]
  | cons x xs ih =>
    simp only [List.foldl_cons]
    by_cases hx : x ∈ acc
    · rw [if_pos hx]
      refine ⟨(ih acc h).1, ?_⟩
      rw [(ih acc h).2]
      ext a
      simp only [Finset.mem_union, List.mem_toFinset, List.toFinset_cons,
        Finset.mem_insert]
      constructor
      · rintro (ha | ha)
        · exact Or.inl ha
        · exact Or.inr (Or.inr ha)
      · rintro (ha | rfl | ha)
        · exact Or.inl ha
        · exact Or.inl hx
        · exact Or.inr ha
    · rw [if_neg hx]
      have hnd : (acc ++ [x]).Nodup := by
        rw [List.nodup_append]
        refine ⟨h, List.nodup_singleton x, ?_⟩
        intro a ha hax
        rw [List.mem_singleton] at hax
        subst hax
        exact hx ha
      refine ⟨(ih (acc ++ [x]) hnd).1, ?_⟩
      rw [(ih (acc ++ [x]) hnd).2]
      ext a
      simp only [Finset.mem_union, List.mem_toFinset, List.toFinset_cons,
        Finset.mem_insert, List.mem_append, List.mem_singleton]
      constructor
      · rintro ((ha | rfl) | ha)
        · exact Or.inl ha
        · exact Or.inr (Or.inl rfl)
        · exact Or.inr (Or.inr ha)
      · rintro (ha | rfl | ha)
        · exact Or.inl (Or.inl ha)
        · exact Or.inl (Or.inr rfl)
        · exact Or.inr ha

/-- The accumulated level set counts exactly the distinct levels among the
literals. -/
theorem glueOf_eq_dedup (S : Solver) (lits : List Int) :
    glueOf S lits = ((lits.map (levelOf S)).dedup).length := by
  have hfold : pullLevels S lits
      = (lits.map (levelOf S)).foldl (fun a v => if v ∈ a then a else a ++ [v]) [] := by
    rw [pullLevels, List.foldl_map]
  rcases insertFold_spec (lits.map (levelOf S)) [] List.nodup_nil with ⟨h1, h2⟩
  rw [glueOf, hfold]
  calc ((lits.map (levelOf S)).foldl (fun a v => if v ∈ a then a else a ++ [v]) []).length
      = ((lits.map (levelOf S)).foldl (fun a v => if v ∈ a then a else a ++ [v]) []).toFinset.card :=
        (List.toFinset_card_of_nodup h1).symm
    _ = (lits.map (levelOf S)).toFinset.card := by rw [h2]; simp
    _ = ((lits.map (levelOf S)).dedup).length := List.card_toFinset _

/-- C6: the glue passed to `new_learned_clause` for a learned clause of
size at least two equals the number of distinct decision levels among the
clause's literals at the moment of learning. -/
theorem learned_glue_distinct_levels (S : Solver) (learnt : List Int)
    (jump : Nat) (l0 l1 : Int) (rest : List Int)
    (h : learnt = l0 :: l1 :: rest) :
    ((analyzeOutcome S learnt jump).clauses.getD
        (backtrack S jump).clauses.length default).glue
      = ((learnt.map (levelOf S)).dedup).length := by
  subst h
  have hcl : (analyzeOutcome S (l0 :: l1 :: rest) jump).clauses
      = (backtrack S jump).clauses
        ++ [⟨l0 :: l1 :: rest, true, glueOf S (l0 :: l1 :: rest), false⟩] := rfl
  rw [hcl, getD_append_len]
  exact glueOf_eq_dedup S (l0 :: l1 :: rest)

/-- C6 witness: the theorem instantiated at `exS2` with the learnt clause
`[-2, 1]` and backjump level `0`. -/
theorem learned_glue_distinct_levels_witness :
    ((analyzeOutcome exS2 [-2, 1] 0).clauses.getD
        (backtrack exS2 0).clauses.length default).glue
      = (([-2, 1].map (levelOf exS2)).dedup).length :=
  learned_glue_distinct_levels exS2 [-2, 1] 0 (-2) 1 [] rfl

/-- Frame facts for a watch handled with outcome `keep`. -/
theorem doWatch_keep (S : Solver) (negl : Int) (w : Watch) (S1 : Solver)
    (w1 : Watch) (heq : doWatch S negl w = .keep S1 w1) :
    S1.conflict = S.conflict ∧ S1.propagated = S.propagated ∧
    S.trail.length ≤ S1.trail.length ∧ S1.unsat = S.unsat ∧
    S1.level = S.level ∧ S.statsFixed ≤ S1.statsFixed ∧
    S1.control = S.control ∧ S1.max_var = S.max_var := by
  simp only [doWatch] at heq
  split at heq
  · cases heq
    exact ⟨rfl, rfl, le_refl _, rfl, rfl, le_refl _, rfl, rfl⟩
  · split at heq
    · cases heq
    · split at heq
      · cases heq
        exact ⟨rfl, rfl, le_refl _, rfl, rfl, le_refl _, rfl, rfl⟩
      · split at heq
        · cases heq
        · split at heq
          · cases heq
          · cases heq
            refine ⟨rfl, rfl, ?_, rfl, rfl, ?_, rfl, rfl⟩
            · simp [assign]
            · simp only [assign]
              split <;> omega

/-- Frame facts for a watch handled with outcome `drop`. -/
theorem doWatch_drop (S : Solver) (negl : Int) (w : Watch) (S1 : Solver)
    (heq : doWatch S negl w = .drop S1) :
    S1.conflict = S.conflict ∧ S1.propagated = S.propagated ∧
    S.trail.length ≤ S1.trail.length ∧ S1.unsat = S.unsat ∧
    S1.level = S.level ∧ S.statsFixed ≤ S1.statsFixed ∧
    S1.control = S.control ∧ S1.max_var = S.max_var := by
  simp only [doWatch] at heq
  split at heq
  · cases heq
  · split at heq
    · cases heq
      exact ⟨rfl, rfl, le_refl _, rfl, rfl, le_refl _, rfl, rfl⟩
    · split at heq
      · cases heq
      · split at heq
        · cases heq
          exact ⟨rfl, rfl, le_refl _, rfl, rfl, le_refl _, rfl, rfl⟩
        · split at heq
          · cases heq
          · cases heq

/-- Frame facts for a watch handled with outcome `confl`: the conflict
field is set to the watched clause. -/
theorem doWatch_confl (S : Solver) (negl : Int) (w : Watch) (S1 : Solver)
    (w1 : Watch) (heq : doWatch S negl w = .confl S1 w1) :
    S1.conflict = some w.clause ∧ S1.propagated = S.propagated ∧
    S1.trail = S.trail ∧ S1.unsat = S.unsat ∧
    S1.level = S.level ∧ S1.statsFixed = S.statsFixed ∧
    S1.control = S.control ∧ S1.max_var = S.max_var := by
  simp only [doWatch] at heq
  split at heq
  · cases heq
  · split at heq
    · cases heq
    · split at heq
      · cases heq
      · split at heq
        · cases heq
        · split at heq
          · cases heq
            exact ⟨rfl, rfl, rfl, rfl, rfl, rfl, rfl, rfl⟩
          · cases heq

/-- Frame facts for a full watch-list scan that ends without conflict. -/
theorem scanWatches_ok (negl : Int) (ws : List Watch) (kept : List Watch)
    (S S2 : Solver) (h : scanWatches negl S ws kept = .ok S2) :
    S2.conflict = S.conflict ∧ S2.propagated = S.propagated ∧
    S.trail.length ≤ S2.trail.length ∧ S2.unsat = S.unsat ∧
    S2.level = S.level ∧ S.statsFixed ≤ S2.statsFixed ∧
    S2.control = S.control ∧ S2.max_var = S.max_var := by
  induction ws generalizing S kept with
  | nil =>
    simp only [scanWatches] at h
    cases h
    exact ⟨rfl, rfl, le_refl _, rfl, rfl, le_refl _, rfl, rfl⟩
  | cons w rest ih =>
    simp only [scanWatches] at h
    rcases hdw : doWatch S negl w with ⟨Sa, wa⟩ | Sa | ⟨Sa, wa⟩ <;>
      rw [hdw] at h
    · rcases doWatch_keep S negl w Sa wa hdw with
        ⟨e1, e2, e3, e4, e5, e6, e7, e8⟩
      rcases ih (kept ++ [wa]) Sa h with ⟨f1, f2, f3, f4, f5, f6, f7, f8⟩
      exact ⟨f1.trans e1, f2.trans e2, le_trans e3 f3, f4.trans e4,
        f5.trans e5, le_trans e6 f6, f7.trans e7, f8.trans e8⟩
    · rcases doWatch_drop S negl w Sa hdw with
        ⟨e1, e2, e3, e4, e5, e6, e7, e8⟩
      rcases ih kept Sa h with ⟨f1, f2, f3, f4, f5, f6, f7, f8⟩
      exact ⟨f1.trans e1, f2.trans e2, le_trans e3 f3, f4.trans e4,
        f5.trans e5, le_trans e6 f6, f7.trans e7, f8.trans e8⟩
    · cases h

/-- Frame facts for a watch-list scan that ends in a conflict: the
conflict field holds the conflicting clause. -/
theorem scanWatches_confl (negl : Int) (ws : List Watch) (kept : List Watch)
    (S S2 : Solver) (h : scanWatches negl S ws kept = .confl S2) :
    (∃ c, S2.conflict = some c) ∧ S2.propagated = S.propagated ∧
    S.trail.length ≤ S2.trail.length ∧ S2.unsat = S.unsat ∧
    S2.level = S.level ∧ S.statsFixed ≤ S2.statsFixed ∧
    S2.control = S.control ∧ S2.max_var = S.max_var := by
  induction ws generalizing S kept with
  | nil =>
    simp only [scanWatches] at h
    cases h
  | cons w rest ih =>
    simp only [scanWatches] at h
    rcases hdw : doWatch S negl w with ⟨Sa, wa⟩ | Sa | ⟨Sa, wa⟩ <;>
      rw [hdw] at h
    · rcases doWatch_keep S negl w Sa wa hdw with
        ⟨e1, e2, e3, e4, e5, e6, e7, e8⟩
      rcases ih (kept ++ [wa]) Sa h with ⟨f1, f2, f3, f4, f5, f6, f7, f8⟩
      exact ⟨f1, f2.trans e2, le_trans e3 f3, f4.trans e4,
        f5.trans e5, le_trans e6 f6, f7.trans e7, f8.trans e8⟩
    · rcases doWatch_drop S negl w Sa hdw with
        ⟨e1, e2, e3, e4, e5, e6, e7, e8⟩
      rcases ih kept Sa h with ⟨f1, f2, f3, f4, f5, f6, f7, f8⟩
      exact ⟨f1, f2.trans e2, le_trans e3 f3, f4.trans e4,
        f5.trans e5, le_trans e6 f6, f7.trans e7, f8.trans e8⟩
    · cases h
      rcases doWatch_confl S negl w Sa wa hdw with
        ⟨e1, e2, e3, e4, e5, e6, e7, e8⟩
      refine ⟨⟨w.clause, e1⟩, e2, ?_, e4, e5, ?_, e7, e8⟩
      · show S.trail.length ≤ Sa.trail.length
        rw [e3]
      · show S.statsFixed ≤ Sa.statsFixed
        rw [e6]

/-- Frame facts for the propagation loop. -/
theorem propagateAux_frame (fuel : Nat) (S : Solver) (b : Bool) (S2 : Solver)
    (h : propagateAux fuel S = some (b, S2)) :
    S2.unsat = S.unsat ∧ S.statsFixed ≤ S2.statsFixed ∧
    S2.level = S.level ∧ S2.control = S.control ∧ S2.max_var = S.max_var ∧
    S.trail.length ≤ S2.trail.length := by
  induction fuel generalizing S with
  | zero => simp [propagateAux] at h
  | succ fuel ih =>
    simp only [propagateAux] at h
    by_cases hlt : S.propagated < S.trail.length
    · rw [if_pos hlt] at h
      rcases hsw : scanWatches (-(S.trail.getD S.propagated 0))
          { S with propagated := S.propagated + 1 }
          (getWatches { S with propagated := S.propagated + 1 }
            (-(S.trail.getD S.propagated 0))) [] with S3 | S3 <;>
        rw [hsw] at h
      · rcases scanWatches_ok _ _ _ _ _ hsw with ⟨e1, e2, e3, e4, e5, e6, e7, e8⟩
        rcases ih S3 h with ⟨f1, f2, f3, f4, f5, f6⟩
        exact ⟨f1.trans e4, le_trans e6 f2, f3.trans e5, f4.trans e7,
          f5.trans e8, le_trans e3 f6⟩
      · cases h
        rcases scanWatches_confl _ _ _ _ _ hsw with ⟨_, e2, e3, e4, e5, e6, e7, e8⟩
        exact ⟨e4, e6, e5, e7, e8, e3⟩
    · rw [if_neg hlt] at h
      cases h
      exact ⟨rfl, le_refl _, rfl, rfl, rfl, le_refl _⟩

/-- C1: `propagate ()` returns true if and only if it finishes with
`propagated` equal to the trail size and no conflict, and returns false if
and only if a conflicting clause was detected and stored in `conflict`;
there is no third outcome. -/
theorem propagate_return (fuel : Nat) (S : Solver) (b : Bool) (S2 : Solver)
    (hP : S.propagated ≤ S.trail.length) (hC : S.conflict = none)
    (h : propagateAux fuel S = some (b, S2)) :
    (b = true ↔ (S2.propagated = S2.trail.length ∧ S2.conflict = none)) ∧
    (b = false ↔ ∃ c, S2.conflict = some c) := by
  induction fuel generalizing S with
  | zero => simp [propagateAux] at h
  | succ fuel ih =>
    simp only [propagateAux] at h
    by_cases hlt : S.propagated < S.trail.length
    · rw [if_pos hlt] at h
      rcases hsw : scanWatches (-(S.trail.getD S.propagated 0))
          { S with propagated := S.propagated + 1 }
          (getWatches { S with propagated := S.propagated + 1 }
            (-(S.trail.getD S.propagated 0))) [] with S3 | S3 <;>
        rw [hsw] at h
      · rcases scanWatches_ok _ _ _ _ _ hsw with ⟨e1, e2, e3, e4, e5, e6, e7, e8⟩
        apply ih S3 ?_ ?_ h
        · rw [e2]
          show S.propagated + 1 ≤ S3.trail.length
          exact le_trans (by omega : S.propagated + 1 ≤ S.trail.length) e3
        · rw [e1]
          exact hC
      · cases h
        rcases scanWatches_confl _ _ _ _ _ hsw with ⟨⟨c, hc⟩, _, _, _, _, _, _, _⟩
        constructor
        · constructor
          · intro hbad
            cases hbad
          · rintro ⟨_, hnone⟩
            rw [hnone] at hc
            cases hc
        · exact ⟨fun _ => ⟨c, hc⟩, fun _ => rfl⟩
    · rw [if_neg hlt] at h
      cases h
      constructor
      · constructor
        · intro
          exact ⟨by omega, hC⟩
        · intro
          rfl
      · constructor
        · intro hbad
          cases hbad
        · rintro ⟨c, hc⟩
          rw [hC] at hc
          cases hc

/-- C1 witness: a clean run from `exS` (trail fully propagated, no
conflict), instantiating the theorem at `fuel = 1`. -/
theorem propagate_return_witness :
    (true = true ↔ (exS.propagated = exS.trail.length ∧ exS.conflict = none)) ∧
    (true = false ↔ ∃ c, exS.conflict = some c) :=
  propagate_return 1 exS true exS (by decide) (by decide) (by decide)

theorem backtrack_statsFixed (S : Solver) (k : Nat) :
    (backtrack S k).statsFixed = S.statsFixed := by
  obtain ⟨-, -, -, -, -, -, -, -, -, h10, -, -, -, -⟩ :=
    foldl_unassign_frame (S.trail.drop (S.control.getD (k + 1) S.trail.length)) S
  exact h10

theorem backtrack_unsat (S : Solver) (k : Nat) :
    (backtrack S k).unsat = S.unsat := by
  obtain ⟨-, -, -, -, -, -, -, -, h9, -, -, -, -, -⟩ :=
    foldl_unassign_frame (S.trail.drop (S.control.getD (k + 1) S.trail.length)) S
  exact h9

theorem assign_sf_ge (X : Solver) (l : Int) (r : Option Nat) :
    X.statsFixed ≤ (assign X l r).statsFixed := by
  simp only [assign]
  split <;> omega

theorem assign_unsat (X : Solver) (l : Int) (r : Option Nat) :
    (assign X l r).unsat = X.unsat := rfl

theorem analyzeOutcome_mono (S : Solver) (learnt : List Int) (jump : Nat) :
    S.statsFixed ≤ (analyzeOutcome S learnt jump).statsFixed ∧
    (S.unsat = true → (analyzeOutcome S learnt jump).unsat = true) := by
  cases learnt with
  | nil => exact ⟨le_refl _, fun _ => rfl⟩
  | cons l0 tl =>
    cases tl with
    | nil =>
      constructor
      · show S.statsFixed ≤ (assign (backtrack S jump) l0 none).statsFixed
        calc S.statsFixed = (backtrack S jump).statsFixed :=
              (backtrack_statsFixed S jump).symm
          _ ≤ _ := assign_sf_ge _ _ _
      · intro h
        show (assign (backtrack S jump) l0 none).unsat = true
        rw [assign_unsat, backtrack_unsat]
        exact h
    | cons l1 rest =>
      constructor
      · have h1 : (analyzeOutcome S (l0 :: l1 :: rest) jump).statsFixed
            = (if (backtrack S jump).level = 0
               then (backtrack S jump).statsFixed + 1
               else (backtrack S jump).statsFixed) := rfl
        rw [h1, backtrack_statsFixed]
        split <;> omega
      · intro h
        have h2 : (analyzeOutcome S (l0 :: l1 :: rest) jump).unsat
            = (backtrack S jump).unsat := rfl
        rw [h2, backtrack_unsat]
        exact h

theorem decideOp_mono (S : Solver) (lit : Int) :
    S.statsFixed ≤ (decideOp S lit).statsFixed ∧
    (decideOp S lit).unsat = S.unsat := by
  constructor
  · have h : (decideOp S lit).statsFixed
        = (if S.level + 1 = 0 then S.statsFixed + 1 else S.statsFixed) := rfl
    rw [h]
    split <;> omega
  · rfl

theorem flushStep_mono (S : Solver) (ci : Nat) :
    S.statsFixed ≤ (flushStep S ci).statsFixed ∧
    (S.unsat = true → (flushStep S ci).unsat = true) := by
  constructor
  · simp only [flushStep]
    split
    · exact le_refl _
    · split
      · exact le_refl _
      · split
        · exact le_refl _
        · split
          · exact Nat.le_succ _
          · exact le_refl _
        · exact le_refl _
  · intro h
    simp only [flushStep]
    split
    · exact h
    · split
      · exact h
      · split
        · rfl
        · split
          · exact h
          · exact h
        · exact h

theorem foldl_flush_mono (ls : List Nat) (S : Solver) :
    S.statsFixed ≤ (ls.foldl flushStep S).statsFixed ∧
    (S.unsat = true → (ls.foldl flushStep S).unsat = true) := by
  induction ls generalizing S with
  | nil => exact ⟨le_refl _, fun h => h⟩
  | cons x xs ih =>
    rcases flushStep_mono S x with ⟨h1, h2⟩
    rcases ih (flushStep S x) with ⟨g1, g2⟩
    exact ⟨le_trans h1 g1, fun h => g2 (h2 h)⟩

theorem foldl_markGarbage_frame (ls : List Nat) (S : Solver) :
    (ls.foldl markGarbage S).statsFixed = S.statsFixed ∧
    (ls.foldl markGarbage S).unsat = S.unsat := by
  induction ls generalizing S with
  | nil => exact ⟨rfl, rfl⟩
  | cons x xs ih => exact ih (markGarbage S x)

theorem reduceOp_mono (S : Solver) (useless : List Nat) :
    S.statsFixed ≤ (reduceOp S useless).statsFixed ∧
    (S.unsat = true → (reduceOp S useless).unsat = true) := by
  rcases foldl_flush_mono (List.range S.clauses.length) S with ⟨h1, h2⟩
  rcases foldl_markGarbage_frame useless
    ((List.range S.clauses.length).foldl flushStep S) with ⟨g1, g2⟩
  constructor
  · show S.statsFixed ≤ (useless.foldl markGarbage
      ((List.range S.clauses.length).foldl flushStep S)).statsFixed
    rw [g1]
    exact h1
  · intro h
    show (useless.foldl markGarbage
      ((List.range S.clauses.length).foldl flushStep S)).unsat = true
    rw [g2]
    exact h2 h

theorem step_mono (S S' : Solver) (h : Step S S') :
    S.statsFixed ≤ S'.statsFixed ∧ (S.unsat = true → S'.unsat = true) := by
  cases h with
  | prop fuel b hp =>
    rcases propagateAux_frame fuel S b S' hp with ⟨h1, h2, -⟩
    exact ⟨h2, fun hh => by rw [h1]; exact hh⟩
  | analyze learnt jump h1 h2 h3 => exact analyzeOutcome_mono S learnt jump
  | bt k hk =>
    exact ⟨le_of_eq (backtrack_statsFixed S k).symm,
      fun hh => by rw [backtrack_unsat]; exact hh⟩
  | restart k hk =>
    exact ⟨le_of_eq (backtrack_statsFixed S k).symm,
      fun hh => by
        rw [show (restartOp S k).unsat = S.unsat from backtrack_unsat S k]
        exact hh⟩
  | reduce useless hr => exact reduceOp_mono S useless
  | decide lit h1 h2 =>
    rcases decideOp_mono S lit with ⟨g1, g2⟩
    exact ⟨g1, fun hh => by rw [g2]; exact hh⟩

/-- From a state with `unsat` already set, the search loop of §4.9 can
only answer UNSAT. -/
theorem searchLoop_unsat (fuel : Nat) (orc : Nat → Choice) :
    ∀ (t : Nat) (S : Solver), S.unsat = true →
      ∀ r, searchLoop fuel orc t S = some r → r = Res.UNSAT := by
  induction fuel with
  | zero =>
    intro t S hU r h
    simp [searchLoop] at h
  | succ fuel ih =>
    intro t S hU r h
    simp only [searchLoop] at h
    split at h
    · cases h
    · rename_i S1 heq
      have hU1 : S1.unsat = true := by
        rcases propagateAux_frame _ _ _ _ heq with ⟨h1, -⟩
        rw [h1]
        exact hU
      by_cases hl : S1.level = 0
      · rw [if_pos hl] at h
        cases h
        rfl
      · rw [if_neg hl] at h
        exact ih (t + 1) (analyzeOutcome S1 (orc t).learnt (orc t).jump)
          ((analyzeOutcome_mono S1 (orc t).learnt (orc t).jump).2 hU1) r h
    · rename_i S1 heq
      have hU1 : S1.unsat = true := by
        rcases propagateAux_frame _ _ _ _ heq with ⟨h1, -⟩
        rw [h1]
        exact hU
      rw [if_pos hU1] at h
      cases h
      rfl

/-- C7: across every step of the solver (propagate, analyze, backtrack,
restart, reduce, decide) `stats.fixed` never decreases and `unsat`, once
true, never becomes false again; and from a state with `unsat` set the
search loop can only terminate with UNSAT. -/
theorem fixed_unsat_monotone (S S' : Solver) (hstep : Step S S')
    (fuel t : Nat) (orc : Nat → Choice) :
    (S.statsFixed ≤ S'.statsFixed ∧ (S.unsat = true → S'.unsat = true)) ∧
    (∀ r, S.unsat = true → searchLoop fuel orc t S = some r → r = Res.UNSAT) :=
  ⟨step_mono S S' hstep, fun r hU h => searchLoop_unsat fuel orc t S hU r h⟩

/-- A fixed heuristic choice used by the witnesses. -/
def exChoice : Choice where
  pfuel := 1
  learnt := []
  jump := 0
  doRestart := false
  reuse := 0
  doReduce := false
  useless := []
  dlit := 0
  terminate := false

/-- C7 witness: the theorem instantiated at the concrete decision step
from `exS` on variable 2. -/
theorem fixed_unsat_monotone_witness :
    (exS.statsFixed ≤ (decideOp exS 2).statsFixed ∧
      (exS.unsat = true → (decideOp exS 2).unsat = true)) ∧
    (∀ r, exS.unsat = true → searchLoop 0 (fun _ => exChoice) 0 exS = some r →
      r = Res.UNSAT) :=
  fixed_unsat_monotone exS (decideOp exS 2)
    (Step.decide 2 (by decide) (by decide)) 0 0 (fun _ => exChoice)

theorem getD_mem_or_eq {α : Type} (xs : List α) (i : Nat) (d : α) :
    xs.getD i d ∈ xs ∨ xs.getD i d = d := by
  by_cases h : i < xs.length
  · left
    rw [List.getD_eq_getElem xs d h]
    exact xs.getElem_mem h
  · right
    exact getD_oob xs i d (le_of_not_lt h)

theorem getD_zero_of_valD (S : Solver) (x : Int) (h : valD S x = 0) :
    S.vals.getD x.natAbs 0 = 0 := by
  rw [valD] at h
  split at h
  · omega
  · exact h

theorem valD_range (S : Solver) (hr : ∀ v ∈ S.vals, v = -1 ∨ v = 0 ∨ v = 1)
    (x : Int) : valD S x = -1 ∨ valD S x = 0 ∨ valD S x = 1 := by
  have hm : S.vals.getD x.natAbs 0 = -1 ∨ S.vals.getD x.natAbs 0 = 0 ∨
      S.vals.getD x.natAbs 0 = 1 := by
    rcases getD_mem_or_eq S.vals x.natAbs 0 with h | h
    · exact hr _ h
    · right; left; exact h
  rcases hm with h | h | h <;> rw [valD, h] <;> split <;> decide

/-- `Inv` only depends on `control`, `level`, `trail`, `vals`,
`vtabLevel`, `max_var` and the clause literals. -/
theorem inv_of_eq {S S' : Solver} (hI : Inv S)
    (he : S'.control = S.control ∧ S'.level = S.level ∧ S'.trail = S.trail ∧
      S'.vtabLevel = S.vtabLevel ∧ S'.vals = S.vals ∧ S'.max_var = S.max_var)
    (hcl : ∀ c ∈ S'.clauses, ∀ l ∈ c.lits, l.natAbs ≤ S'.max_var.toNat) :
    Inv S' := by
  obtain ⟨hc, hl, ht, hvt, hv, hm⟩ := he
  have hlev : ∀ x, levelOf S' x = levelOf S x := fun x => by
    rw [levelOf, levelOf, hvt]
  have hvd : ∀ x, valD S' x = valD S x := fun x => by
    rw [valD, valD, hv]
  refine ⟨?_, ?_, ?_, ?_, ?_, ?_, ?_, ?_, ?_, ?_, ?_, ?_, ?_, ?_⟩
  · rw [hc, hl]; exact hI.ctrl_len
  · rw [hc]; exact hI.ctrl_zero
  · intro k hk
    rw [hc] at hk ⊢
    rw [ht]
    exact hI.ctrl_le k hk
  · intro j k h1 h2 h3
    rw [hc] at h3 ⊢
    exact hI.ctrl_strict j k h1 h2 h3
  · intro k hk i hi
    rw [hc] at hk hi
    rw [ht, hlev]
    exact hI.before_lt k hk i hi
  · intro k h1 h2
    rw [hc] at h2 ⊢
    rw [ht, hlev]
    exact hI.dec_at k h1 h2
  · intro l hl2
    rw [ht] at hl2
    rw [hlev, hl]
    exact hI.lvl_le l hl2
  · intro l hl2
    rw [ht] at hl2
    rw [hvd]
    exact hI.assigned l hl2
  · rw [ht]; exact hI.nodup
  · rw [hv, hm]; exact hI.vals_len
  · rw [hvt, hm]; exact hI.lvls_len
  · rw [hv]; exact hI.vals_range
  · exact hcl
  · intro l hl2
    rw [ht] at hl2
    rw [hm]
    exact hI.trail_ok l hl2

theorem assign_inv (S : Solver) (lit : Int) (r : Option Nat) (hI : Inv S)
    (h0 : valD S lit = 0) (hv : lit.natAbs ≤ S.max_var.toNat) :
    Inv (assign S lit r) := by
  have hz : S.vals.getD lit.natAbs 0 = 0 := getD_zero_of_valD S lit h0
  have hidxv : lit.natAbs < S.vals.length := by rw [hI.vals_len]; omega
  have hidxl : lit.natAbs < S.vtabLevel.length := by rw [hI.lvls_len]; omega
  have hfresh : ∀ x, x ∈ S.trail → x.natAbs ≠ lit.natAbs := by
    intro x hx heq
    have h1 := hI.assigned x hx
    rw [valD, heq, hz] at h1
    split at h1 <;> omega
  have htr : (assign S lit r).trail = S.trail ++ [lit] := rfl
  have hctrl : (assign S lit r).control = S.control := rfl
  have hlev : (assign S lit r).level = S.level := rfl
  have hmv : (assign S lit r).max_var = S.max_var := rfl
  have hva : (assign S lit r).vals
      = S.vals.set lit.natAbs (if lit < 0 then -1 else 1) := rfl
  have hlv : (assign S lit r).vtabLevel
      = S.vtabLevel.set lit.natAbs S.level := rfl
  have hlev_pres : ∀ x, x.natAbs ≠ lit.natAbs →
      levelOf (assign S lit r) x = levelOf S x := by
    intro x hne
    rw [levelOf, levelOf, hlv, getD_set_of_ne _ _ _ _ _ (fun h => hne h.symm)]
  have hval_pres : ∀ x, x.natAbs ≠ lit.natAbs →
      valD (assign S lit r) x = valD S x := by
    intro x hne
    rw [valD, valD, hva, getD_set_of_ne _ _ _ _ _ (fun h => hne h.symm)]
  have hval_new : valD (assign S lit r) lit = 1 := by
    rw [valD, hva, getD_set_self _ _ _ _ hidxv]
    by_cases hlt : lit < 0 <;> simp [hlt]
  have hlev_new : levelOf (assign S lit r) lit = S.level := by
    rw [levelOf, hlv, getD_set_self _ _ _ _ hidxl]
  have htrl : (assign S lit r).trail.length = S.trail.length + 1 := by
    rw [htr, List.length_append, List.length_cons, List.length_nil]
  have hgetD_tr : ∀ i, i < S.trail.length →
      (assign S lit r).trail.getD i 0 = S.trail.getD i 0 := by
    intro i hi
    rw [htr]
    exact getD_append_left _ _ i 0 hi
  have hmem_tr : ∀ i, i < S.trail.length → S.trail.getD i 0 ∈ S.trail := by
    intro i hi
    rw [List.getD_eq_getElem _ _ hi]
    exact S.trail.getElem_mem hi
  refine ⟨?_, ?_, ?_, ?_, ?_, ?_, ?_, ?_, ?_, ?_, ?_, ?_, ?_, ?_⟩
  · rw [hctrl, hlev]; exact hI.ctrl_len
  · rw [hctrl]; exact hI.ctrl_zero
  · intro k hk
    rw [hctrl] at hk ⊢
    rw [htrl]
    exact le_trans (hI.ctrl_le k hk) (by omega)
  · intro j k h1 h2 h3
    rw [hctrl] at h3 ⊢
    exact hI.ctrl_strict j k h1 h2 h3
  · intro k hk i hi
    rw [hctrl] at hk hi
    have hilt : i < S.trail.length := lt_of_lt_of_le hi (hI.ctrl_le k hk)
    rw [hgetD_tr i hilt, hlev_pres _ (hfresh _ (hmem_tr i hilt))]
    exact hI.before_lt k hk i hi
  · intro k h1 h2
    rw [hctrl] at h2 ⊢
    rcases hI.dec_at k h1 h2 with ⟨d1, d2⟩
    constructor
    · rw [htrl]; omega
    · rw [hgetD_tr _ d1, hlev_pres _ (hfresh _ (hmem_tr _ d1))]
      exact d2
  · intro l hl2
    rw [htr] at hl2
    rcases List.mem_append.mp hl2 with h | h
    · rw [hlev_pres _ (hfresh _ h), hlev]
      exact hI.lvl_le l h
    · rw [List.mem_singleton] at h
      subst h
      rw [hlev_new, hlev]
  · intro l hl2
    rw [htr] at hl2
    rcases List.mem_append.mp hl2 with h | h
    · rw [hval_pres _ (hfresh _ h)]
      exact hI.assigned l h
    · rw [List.mem_singleton] at h
      subst h
      exact hval_new
  · rw [htr, List.map_append]
    apply List.Nodup.append hI.nodup (List.nodup_singleton _)
    intro a ha hb
    rw [List.mem_singleton] at hb
    subst hb
    rcases List.mem_map.mp ha with ⟨x, hx, hxa⟩
    exact hfresh x hx hxa
  · rw [hva, List.length_set, hmv]
    exact hI.vals_len
  · rw [hlv, List.length_set, hmv]
    exact hI.lvls_len
  · intro v hvv
    rw [hva] at hvv
    rcases List.mem_or_eq_of_mem_set hvv with h | h
    · exact hI.vals_range v h
    · subst h
      split <;> norm_num
  · intro c hc l hl2
    exact hI.cls_ok c hc l hl2
  · intro l hl2
    rw [htr] at hl2
    rcases List.mem_append.mp hl2 with h | h
    · rw [hmv]
      exact hI.trail_ok l h
    · rw [List.mem_singleton] at h
      subst h
      rw [hmv]
      exact hv

theorem assignRoot_inv (S : Solver) (lit : Int) (hI : Inv S)
    (h0 : valD S lit = 0) (hv : lit.natAbs ≤ S.max_var.toNat) :
    Inv (assignRoot S lit) := by
  have hz : S.vals.getD lit.natAbs 0 = 0 := getD_zero_of_valD S lit h0
  have hidxv : lit.natAbs < S.vals.length := by rw [hI.vals_len]; omega
  have hidxl : lit.natAbs < S.vtabLevel.length := by rw [hI.lvls_len]; omega
  have hfresh : ∀ x, x ∈ S.trail → x.natAbs ≠ lit.natAbs := by
    intro x hx heq
    have h1 := hI.assigned x hx
    rw [valD, heq, hz] at h1
    split at h1 <;> omega
  have htr : (assignRoot S lit).trail = S.trail ++ [lit] := rfl
  have hctrl : (assignRoot S lit).control = S.control := rfl
  have hlev : (assignRoot S lit).level = S.level := rfl
  have hmv : (assignRoot S lit).max_var = S.max_var := rfl
  have hva : (assignRoot S lit).vals
      = S.vals.set lit.natAbs (if lit < 0 then -1 else 1) := rfl
  have hlv : (assignRoot S lit).vtabLevel
      = S.vtabLevel.set lit.natAbs 0 := rfl
  have hlev_pres : ∀ x, x.natAbs ≠ lit.natAbs →
      levelOf (assignRoot S lit) x = levelOf S x := by
    intro x hne
    rw [levelOf, levelOf, hlv, getD_set_of_ne _ _ _ _ _ (fun h => hne h.symm)]
  have hval_pres : ∀ x, x.natAbs ≠ lit.natAbs →
      valD (assignRoot S lit) x = valD S x := by
    intro x hne
    rw [valD, valD, hva, getD_set_of_ne _ _ _ _ _ (fun h => hne h.symm)]
  have hval_new : valD (assignRoot S lit) lit = 1 := by
    rw [valD, hva, getD_set_self _ _ _ _ hidxv]
    by_cases hlt : lit < 0 <;> simp [hlt]
  have hlev_new : levelOf (assignRoot S lit) lit = 0 := by
    rw [levelOf, hlv, getD_set_self _ _ _ _ hidxl]
  have htrl : (assignRoot S lit).trail.length = S.trail.length + 1 := by
    rw [htr, List.length_append, List.length_cons, List.length_nil]
  have hgetD_tr : ∀ i, i < S.trail.length →
      (assignRoot S lit).trail.getD i 0 = S.trail.getD i 0 := by
    intro i hi
    rw [htr]
    exact getD_append_left _ _ i 0 hi
  have hmem_tr : ∀ i, i < S.trail.length → S.trail.getD i 0 ∈ S.trail := by
    intro i hi
    rw [List.getD_eq_getElem _ _ hi]
    exact S.trail.getElem_mem hi
  refine ⟨?_, ?_, ?_, ?_, ?_, ?_, ?_, ?_, ?_, ?_, ?_, ?_, ?_, ?_⟩
  · rw [hctrl, hlev]; exact hI.ctrl_len
  · rw [hctrl]; exact hI.ctrl_zero
  · intro k hk
    rw [hctrl] at hk ⊢
    rw [htrl]
    exact le_trans (hI.ctrl_le k hk) (by omega)
  · intro j k h1 h2 h3
    rw [hctrl] at h3 ⊢
    exact hI.ctrl_strict j k h1 h2 h3
  · intro k hk i hi
    rw [hctrl] at hk hi
    have hilt : i < S.trail.length := lt_of_lt_of_le hi (hI.ctrl_le k hk)
    rw [hgetD_tr i hilt, hlev_pres _ (hfresh _ (hmem_tr i hilt))]
    exact hI.before_lt k hk i hi
  · intro k h1 h2
    rw [hctrl] at h2 ⊢
    rcases hI.dec_at k h1 h2 with ⟨d1, d2⟩
    constructor
    · rw [htrl]; omega
    · rw [hgetD_tr _ d1, hlev_pres _ (hfresh _ (hmem_tr _ d1))]
      exact d2
  · intro l hl2
    rw [htr] at hl2
    rcases List.mem_append.mp hl2 with h | h
    · rw [hlev_pres _ (hfresh _ h), hlev]
      exact hI.lvl_le l h
    · rw [List.mem_singleton] at h
      subst h
      rw [hlev_new, hlev]
      exact Nat.zero_le _
  · intro l hl2
    rw [htr] at hl2
    rcases List.mem_append.mp hl2 with h | h
    · rw [hval_pres _ (hfresh _ h)]
      exact hI.assigned l h
    · rw [List.mem_singleton] at h
      subst h
      exact hval_new
  · rw [htr, List.map_append]
    apply List.Nodup.append hI.nodup (List.nodup_singleton _)
    intro a ha hb
    rw [List.mem_singleton] at hb
    subst hb
    rcases List.mem_map.mp ha with ⟨x, hx, hxa⟩
    exact hfresh x hx hxa
  · rw [hva, List.length_set, hmv]
    exact hI.vals_len
  · rw [hlv, List.length_set, hmv]
    exact hI.lvls_len
  · intro v hvv
    rw [hva] at hvv
    rcases List.mem_or_eq_of_mem_set hvv with h | h
    · exact hI.vals_range v h
    · subst h
      split <;> norm_num
  · intro c hc l hl2
    exact hI.cls_ok c hc l hl2
  · intro l hl2
    rw [htr] at hl2
    rcases List.mem_append.mp hl2 with h | h
    · rw [hmv]
      exact hI.trail_ok l h
    · rw [List.mem_singleton] at h
      subst h
      rw [hmv]
      exact hv

theorem swapNeg_lits_sub (c : Clause) (negl : Int) (l : Int)
    (h : l ∈ (swapNeg c negl).lits) : l ∈ c.lits ∨ l = negl ∨ l = 0 := by
  rw [swapNeg] at h
  split at h
  · rcases List.mem_or_eq_of_mem_set h with h2 | h2
    · rcases List.mem_or_eq_of_mem_set h2 with h3 | h3
      · exact Or.inl h3
      · rcases getD_mem_or_eq c.lits 1 0 with h4 | h4
        · left
          rw [h3]
          exact h4
        · exact Or.inr (Or.inr (h3.trans h4))
    · exact Or.inr (Or.inl h2)
  · exact Or.inl h

theorem cls_ok_set (S : Solver) (ci : Nat) (c' : Clause)
    (hok : ∀ c ∈ S.clauses, ∀ l ∈ c.lits, l.natAbs ≤ S.max_var.toNat)
    (hc' : ∀ l ∈ c'.lits, l.natAbs ≤ S.max_var.toNat) :
    ∀ c ∈ S.clauses.set ci c', ∀ l ∈ c.lits, l.natAbs ≤ S.max_var.toNat := by
  intro c hc l hl
  rcases List.mem_or_eq_of_mem_set hc with h | h
  · exact hok c h l hl
  · subst h
    exact hc' l hl

theorem getD_clause_ok (S : Solver) (ci : Nat)
    (hok : ∀ c ∈ S.clauses, ∀ l ∈ c.lits, l.natAbs ≤ S.max_var.toNat) :
    ∀ l ∈ (S.clauses.getD ci default).lits, l.natAbs ≤ S.max_var.toNat := by
  rcases getD_mem_or_eq S.clauses ci default with h | h
  · exact hok _ h
  · rw [h]
    intro l hl
    cases hl

theorem swapNeg_ok (S : Solver) (ci : Nat) (negl : Int)
    (hok : ∀ c ∈ S.clauses, ∀ l ∈ c.lits, l.natAbs ≤ S.max_var.toNat)
    (hn : negl.natAbs ≤ S.max_var.toNat) :
    ∀ l ∈ (swapNeg (S.clauses.getD ci default) negl).lits,
      l.natAbs ≤ S.max_var.toNat := by
  intro l hl
  rcases swapNeg_lits_sub _ _ _ hl with h | h | h
  · exact getD_clause_ok S ci hok l h
  · subst h
    exact hn
  · subst h
    rw [Int.natAbs_zero]
    exact Nat.zero_le _

theorem doWatch_inv_keep (S : Solver) (negl : Int) (w : Watch) (S1 : Solver)
    (w1 : Watch) (hI : Inv S) (hn : negl.natAbs ≤ S.max_var.toNat)
    (heq : doWatch S negl w = .keep S1 w1) : Inv S1 := by
  have hcsw := swapNeg_ok S w.clause negl hI.cls_ok hn
  have hmid : Inv { S with clauses :=
      (S.clauses.set w.clause (swapNeg (S.clauses.getD w.clause default) negl)) } := by
    apply inv_of_eq hI
    exacts [⟨rfl, rfl, rfl, rfl, rfl, rfl⟩, cls_ok_set S w.clause _ hI.cls_ok hcsw]
  simp only [doWatch] at heq
  split at heq
  · cases heq
    exact hI
  · split at heq
    · cases heq
    · split at heq
      · cases heq
        exact hmid
      · split at heq
        · cases heq
        · split at heq
          · cases heq
          · cases heq
            apply assign_inv _ _ _ hmid ?_ ?_
            · rcases valD_range _ hmid.vals_range
                ((swapNeg (S.clauses.getD w.clause default) negl).lits.getD 0 0)
                with h | h | h
              · exact absurd h (by assumption)
              · exact h
              · exact absurd h (by assumption)
            · rcases getD_mem_or_eq
                (swapNeg (S.clauses.getD w.clause default) negl).lits 0 0
                with h | h
              · exact hcsw _ h
              · rw [h, Int.natAbs_zero]
                exact Nat.zero_le _

theorem doWatch_inv_drop (S : Solver) (negl : Int) (w : Watch) (S1 : Solver)
    (hI : Inv S) (hn : negl.natAbs ≤ S.max_var.toNat)
    (heq : doWatch S negl w = .drop S1) : Inv S1 := by
  have hcsw := swapNeg_ok S w.clause negl hI.cls_ok hn
  simp only [doWatch] at heq
  split at heq
  · cases heq
  · split at heq
    · cases heq
      exact hI
    · split at heq
      · cases heq
      · split at heq
        · rename_i j hfind
          cases heq
          apply inv_of_eq hI
          · exact ⟨rfl, rfl, rfl, rfl, rfl, rfl⟩
          intro cc hcc l hl
          rcases List.mem_or_eq_of_mem_set hcc with h | h
          · rcases List.mem_or_eq_of_mem_set h with h' | h'
            · exact hI.cls_ok cc h' l hl
            · subst h'
              exact hcsw l hl
          · subst h
            rcases List.mem_or_eq_of_mem_set hl with h' | h'
            · rcases List.mem_or_eq_of_mem_set h' with h'' | h''
              · exact hcsw l h''
              · subst h''
                rcases getD_mem_or_eq
                  (swapNeg (S.clauses.getD w.clause default) negl).lits
                  (2 + j) 0 with h4 | h4
                · exact hcsw _ h4
                · rw [h4, Int.natAbs_zero]
                  exact Nat.zero_le _
            · subst h'
              exact hn
        · split at heq
          · cases heq
          · cases heq

theorem doWatch_inv_confl (S : Solver) (negl : Int) (w : Watch) (S1 : Solver)
    (w1 : Watch) (hI : Inv S) (hn : negl.natAbs ≤ S.max_var.toNat)
    (heq : doWatch S negl w = .confl S1 w1) : Inv S1 := by
  have hcsw := swapNeg_ok S w.clause negl hI.cls_ok hn
  simp only [doWatch] at heq
  split at heq
  · cases heq
  · split at heq
    · cases heq
    · split at heq
      · cases heq
      · split at heq
        · cases heq
        · split at heq
          · cases heq
            apply inv_of_eq hI
            exacts [⟨rfl, rfl, rfl, rfl, rfl, rfl⟩,
              cls_ok_set S w.clause _ hI.cls_ok hcsw]
          · cases heq

theorem scanWatches_inv_ok (negl : Int) (ws kept : List Watch)
    (S S2 : Solver) (hI : Inv S) (hn : negl.natAbs ≤ S.max_var.toNat)
    (h : scanWatches negl S ws kept = .ok S2) : Inv S2 := by
  induction ws generalizing S kept with
  | nil =>
    simp only [scanWatches] at h
    cases h
    apply inv_of_eq hI
    exacts [⟨rfl, rfl, rfl, rfl, rfl, rfl⟩, hI.cls_ok]
  | cons w rest ih =>
    simp only [scanWatches] at h
    rcases hdw : doWatch S negl w with ⟨Sa, wa⟩ | Sa | ⟨Sa, wa⟩ <;>
      rw [hdw] at h
    · have hIa := doWatch_inv_keep S negl w Sa wa hI hn hdw
      rcases doWatch_keep S negl w Sa wa hdw with ⟨-, -, -, -, -, -, -, e8⟩
      exact ih (kept ++ [wa]) Sa hIa (by rw [e8]; exact hn) h
    · have hIa := doWatch_inv_drop S negl w Sa hI hn hdw
      rcases doWatch_drop S negl w Sa hdw with ⟨-, -, -, -, -, -, -, e8⟩
      exact ih kept Sa hIa (by rw [e8]; exact hn) h
    · cases h

theorem scanWatches_inv_confl (negl : Int) (ws kept : List Watch)
    (S S2 : Solver) (hI : Inv S) (hn : negl.natAbs ≤ S.max_var.toNat)
    (h : scanWatches negl S ws kept = .confl S2) : Inv S2 := by
  induction ws generalizing S kept with
  | nil =>
    simp only [scanWatches] at h
    cases h
  | cons w rest ih =>
    simp only [scanWatches] at h
    rcases hdw : doWatch S negl w with ⟨Sa, wa⟩ | Sa | ⟨Sa, wa⟩ <;>
      rw [hdw] at h
    · have hIa := doWatch_inv_keep S negl w Sa wa hI hn hdw
      rcases doWatch_keep S negl w Sa wa hdw with ⟨-, -, -, -, -, -, -, e8⟩
      exact ih (kept ++ [wa]) Sa hIa (by rw [e8]; exact hn) h
    · have hIa := doWatch_inv_drop S negl w Sa hI hn hdw
      rcases doWatch_drop S negl w Sa hdw with ⟨-, -, -, -, -, -, -, e8⟩
      exact ih kept Sa hIa (by rw [e8]; exact hn) h
    · cases h
      have hIa := doWatch_inv_confl S negl w Sa wa hI hn hdw
      apply inv_of_eq hIa
      exacts [⟨rfl, rfl, rfl, rfl, rfl, rfl⟩, hIa.cls_ok]

theorem propagateAux_inv (fuel : Nat) (S : Solver) (b : Bool) (S2 : Solver)
    (hI : Inv S) (h : propagateAux fuel S = some (b, S2)) : Inv S2 := by
  induction fuel generalizing S with
  | zero => simp [propagateAux] at h
  | succ fuel ih =>
    simp only [propagateAux] at h
    by_cases hlt : S.propagated < S.trail.length
    · rw [if_pos hlt] at h
      have hmem : S.trail.getD S.propagated 0 ∈ S.trail := by
        rw [List.getD_eq_getElem _ _ hlt]
        exact S.trail.getElem_mem hlt
      have hn : (-(S.trail.getD S.propagated 0)).natAbs ≤ S.max_var.toNat := by
        rw [Int.natAbs_neg]
        exact hI.trail_ok _ hmem
      have hS1 : Inv { S with propagated := S.propagated + 1 } := by
        apply inv_of_eq hI
        exacts [⟨rfl, rfl, rfl, rfl, rfl, rfl⟩, hI.cls_ok]
      rcases hsw : scanWatches (-(S.trail.getD S.propagated 0))
          { S with propagated := S.propagated + 1 }
          (getWatches { S with propagated := S.propagated + 1 }
            (-(S.trail.getD S.propagated 0))) [] with S3 | S3 <;>
        rw [hsw] at h
      · exact ih S3 (scanWatches_inv_ok _ _ _ _ _ hS1 hn hsw) h
      · cases h
        exact scanWatches_inv_confl _ _ _ _ _ hS1 hn hsw
    · rw [if_neg hlt] at h
      cases h
      exact hI

theorem getD_eq_getD {α : Type} (xs : List α) (i : Nat) (d1 d2 : α)
    (h : i < xs.length) : xs.getD i d1 = xs.getD i d2 := by
  rw [List.getD_eq_getElem xs d1 h, List.getD_eq_getElem xs d2 h]

theorem foldl_unassign_range (ls : List Int) (S : Solver)
    (h : ∀ v ∈ S.vals, v = -1 ∨ v = 0 ∨ v = 1) :
    ∀ v ∈ (ls.foldl unassign S).vals, v = -1 ∨ v = 0 ∨ v = 1 := by
  induction ls generalizing S with
  | nil => exact h
  | cons x xs ih =>
    apply ih (unassign S x)
    intro v hv
    rcases List.mem_or_eq_of_mem_set hv with h2 | h2
    · exact h v h2
    · right
      left
      exact h2

theorem backtrack_inv (S : Solver) (k : Nat) (hI : Inv S) (hk : k ≤ S.level) :
    Inv (backtrack S k) := by
  set b := S.control.getD (k + 1) S.trail.length with hb
  obtain ⟨hfr1, hfr2, hfr3, hfr4, hfr5, hfr6, hfr7, hfr8, hfr9, hfr10,
    hfr11, hfr12, hfr13, hfr14⟩ := foldl_unassign_frame (S.trail.drop b) S
  have hBctrl : (backtrack S k).control = S.control.take (k + 1) := rfl
  have hBtrail : (backtrack S k).trail = S.trail.take b := rfl
  have hBlevel : (backtrack S k).level = k := rfl
  have hBvt : (backtrack S k).vtabLevel = S.vtabLevel := hfr5
  have hBmv : (backtrack S k).max_var = S.max_var := hfr8
  have hBcls : (backtrack S k).clauses = S.clauses := hfr11
  have hBvalsl : (backtrack S k).vals.length = S.vals.length := hfr12
  have hlevpres : ∀ x, levelOf (backtrack S k) x = levelOf S x := fun x => by
    rw [levelOf, levelOf, hBvt]
  rcases lt_or_eq_of_le hk with hlt | hkl
  · -- proper backjump: k < level, the boundary is the control entry of
    -- level k + 1
    have hin : k + 1 < S.control.length := by rw [hI.ctrl_len]; omega
    have hb0 : b = S.control.getD (k + 1) 0 := by
      rw [hb]
      exact getD_eq_getD _ _ _ _ hin
    have hble : b ≤ S.trail.length := by
      rw [hb0]
      exact hI.ctrl_le _ hin
    have hlen_tr : (backtrack S k).trail.length = b := by
      rw [hBtrail, List.length_take]
      omega
    have hlen_c : (backtrack S k).control.length = k + 1 := by
      rw [hBctrl, List.length_take, hI.ctrl_len]
      omega
    have hgc : ∀ j, j < k + 1 →
        (backtrack S k).control.getD j 0 = S.control.getD j 0 := by
      intro j hj
      rw [hBctrl]
      exact getD_take_of_lt _ _ _ _ hj
    have hgt : ∀ i, i < b →
        (backtrack S k).trail.getD i 0 = S.trail.getD i 0 := by
      intro i hi
      rw [hBtrail]
      exact getD_take_of_lt _ _ _ _ hi
    have hcb : ∀ j, j < k + 1 → S.control.getD j 0 ≤ b := by
      intro j hj
      rcases Nat.eq_zero_or_pos j with rfl | hj1
      · rw [hI.ctrl_zero]
        exact Nat.zero_le _
      · rw [hb0]
        exact le_of_lt (hI.ctrl_strict j (k + 1) hj1 hj hin)
    have hcbs : ∀ j, 1 ≤ j → j < k + 1 → S.control.getD j 0 < b := by
      intro j h1 hj
      rw [hb0]
      exact hI.ctrl_strict j (k + 1) h1 hj hin
    have hdisj : ∀ x ∈ S.trail.take b, ∀ d ∈ S.trail.drop b,
        d.natAbs ≠ x.natAbs := by
      intro x hx d hd heq
      have hnd := hI.nodup
      rw [← List.take_append_drop b S.trail, List.map_append,
        List.nodup_append] at hnd
      exact hnd.2.2 (List.mem_map_of_mem _ hx)
        (heq ▸ List.mem_map_of_mem _ hd)
    have hvalpres : ∀ x ∈ S.trail.take b,
        valD (backtrack S k) x = valD S x := by
      intro x hx
      have h1 : (backtrack S k).vals.getD x.natAbs 0
          = S.vals.getD x.natAbs 0 :=
        foldl_unassign_other _ S x (fun d hd => hdisj x hx d hd)
      rw [valD, valD, h1]
    refine ⟨?_, ?_, ?_, ?_, ?_, ?_, ?_, ?_, ?_, ?_, ?_, ?_, ?_, ?_⟩
    · rw [hlen_c, hBlevel]
    · rw [hgc 0 (by omega), hI.ctrl_zero]
    · intro j hj
      rw [hlen_c] at hj
      rw [hgc j hj, hlen_tr]
      exact hcb j hj
    · intro j k2 h1 h2 h3
      rw [hlen_c] at h3
      rw [hgc j (by omega), hgc k2 h3]
      exact hI.ctrl_strict j k2 h1 h2 (by rw [hI.ctrl_len]; omega)
    · intro k2 hk2 i hi
      rw [hlen_c] at hk2
      rw [hgc k2 hk2] at hi
      have hib : i < b := lt_of_lt_of_le hi (hcb k2 hk2)
      rw [hgt i hib, hlevpres]
      exact hI.before_lt k2 (by rw [hI.ctrl_len]; omega) i hi
    · intro k2 h1 h2
      rw [hlen_c] at h2
      rw [hgc k2 h2]
      obtain ⟨d1, d2⟩ := hI.dec_at k2 h1 (by rw [hI.ctrl_len]; omega)
      have hlt_b : S.control.getD k2 0 < b := hcbs k2 h1 h2
      constructor
      · rw [hlen_tr]
        exact hlt_b
      · rw [hgt _ hlt_b, hlevpres]
        exact d2
    · intro l hl
      rw [hBtrail] at hl
      obtain ⟨i, hi, hieq⟩ := List.getElem_of_mem hl
      have hib : i < b := by
        rw [List.length_take] at hi
        omega
      have hit : i < S.trail.length := by
        rw [List.length_take] at hi
        omega
      have hleq : l = S.trail.getD i 0 := by
        have h2 : (S.trail.take b).getD i 0 = l := by
          rw [List.getD_eq_getElem _ _ hi, hieq]
        rw [← h2]
        exact getD_take_of_lt _ _ _ _ hib
      rw [hlevpres, hBlevel, hleq]
      have h3 := hI.before_lt (k + 1) hin i (by rw [← hb0]; exact hib)
      omega
    · intro l hl
      rw [hBtrail] at hl
      rw [hvalpres l hl]
      exact hI.assigned l (List.take_subset _ _ hl)
    · rw [hBtrail]
      exact hI.nodup.sublist ((List.take_sublist _ _).map _)
    · rw [hBvalsl, hBmv]
      exact hI.vals_len
    · rw [hBvt, hBmv]
      exact hI.lvls_len
    · intro v hv
      exact foldl_unassign_range _ S hI.vals_range v hv
    · intro c hc l hl
      rw [hBcls] at hc
      rw [hBmv]
      exact hI.cls_ok c hc l hl
    · intro l hl
      rw [hBtrail] at hl
      rw [hBmv]
      exact hI.trail_ok l (List.take_subset _ _ hl)
  · -- k equals the current level: the boundary defaults to the trail end
    -- and nothing is removed
    have hbt : b = S.trail.length := by
      rw [hb]
      apply getD_oob
      rw [hI.ctrl_len]
      omega
    have hnil : S.trail.drop b = [] := by
      rw [hbt, List.drop_length]
    apply inv_of_eq hI
    · refine ⟨?_, ?_, ?_, ?_, ?_, ?_⟩
      · rw [hBctrl, hkl]
        exact List.take_of_length_le (le_of_eq hI.ctrl_len)
      · rw [hBlevel]
        exact hkl
      · rw [hBtrail, hbt]
        exact List.take_length S.trail
      · exact hBvt
      · show ((S.trail.drop b).foldl unassign S).vals = S.vals
        rw [hnil]
        rfl
      · exact hBmv
    · intro c hc l hl
      rw [hBcls] at hc
      rw [hBmv]
      exact hI.cls_ok c hc l hl

theorem backtrack_max_var (S : Solver) (k : Nat) :
    (backtrack S k).max_var = S.max_var := by
  obtain ⟨-, -, -, -, -, -, -, h8, -, -, -, -, -, -⟩ :=
    foldl_unassign_frame
      (S.trail.drop (S.control.getD (k + 1) S.trail.length)) S
  exact h8

theorem decideOp_inv (S : Solver) (lit : Int) (hI : Inv S)
    (h0 : valD S lit = 0) (hv : lit.natAbs ≤ S.max_var.toNat) :
    Inv (decideOp S lit) := by
  have hz : S.vals.getD lit.natAbs 0 = 0 := getD_zero_of_valD S lit h0
  have hidxv : lit.natAbs < S.vals.length := by rw [hI.vals_len]; omega
  have hidxl : lit.natAbs < S.vtabLevel.length := by rw [hI.lvls_len]; omega
  have hfresh : ∀ x, x ∈ S.trail → x.natAbs ≠ lit.natAbs := by
    intro x hx heq
    have h1 := hI.assigned x hx
    rw [valD, heq, hz] at h1
    split at h1 <;> omega
  have hDtr : (decideOp S lit).trail = S.trail ++ [lit] := rfl
  have hDc : (decideOp S lit).control = S.control ++ [S.trail.length] := rfl
  have hDl : (decideOp S lit).level = S.level + 1 := rfl
  have hDmv : (decideOp S lit).max_var = S.max_var := rfl
  have hDva : (decideOp S lit).vals
      = S.vals.set lit.natAbs (if lit < 0 then -1 else 1) := rfl
  have hDlv : (decideOp S lit).vtabLevel
      = S.vtabLevel.set lit.natAbs (S.level + 1) := rfl
  have hlev_pres : ∀ x, x.natAbs ≠ lit.natAbs →
      levelOf (decideOp S lit) x = levelOf S x := by
    intro x hne
    rw [levelOf, levelOf, hDlv, getD_set_of_ne _ _ _ _ _ (fun h => hne h.symm)]
  have hval_pres : ∀ x, x.natAbs ≠ lit.natAbs →
      valD (decideOp S lit) x = valD S x := by
    intro x hne
    rw [valD, valD, hDva, getD_set_of_ne _ _ _ _ _ (fun h => hne h.symm)]
  have hval_new : valD (decideOp S lit) lit = 1 := by
    rw [valD, hDva, getD_set_self _ _ _ _ hidxv]
    by_cases hlt : lit < 0 <;> simp [hlt]
  have hlev_new : levelOf (decideOp S lit) lit = S.level + 1 := by
    rw [levelOf, hDlv, getD_set_self _ _ _ _ hidxl]
  have htrl : (decideOp S lit).trail.length = S.trail.length + 1 := by
    rw [hDtr, List.length_append, List.length_cons, List.length_nil]
  have hctl : (decideOp S lit).control.length = S.control.length + 1 := by
    rw [hDc, List.length_append, List.length_cons, List.length_nil]
  have hgd_c : ∀ j, j < S.control.length →
      (decideOp S lit).control.getD j 0 = S.control.getD j 0 := by
    intro j hj
    rw [hDc]
    exact getD_append_left _ _ j 0 hj
  have hgd_cl : (decideOp S lit).control.getD S.control.length 0
      = S.trail.length := by
    rw [hDc]
    exact getD_append_len _ _ _
  have hgetD_tr : ∀ i, i < S.trail.length →
      (decideOp S lit).trail.getD i 0 = S.trail.getD i 0 := by
    intro i hi
    rw [hDtr]
    exact getD_append_left _ _ i 0 hi
  have hmem_tr : ∀ i, i < S.trail.length → S.trail.getD i 0 ∈ S.trail := by
    intro i hi
    rw [List.getD_eq_getElem _ _ hi]
    exact S.trail.getElem_mem hi
  refine ⟨?_, ?_, ?_, ?_, ?_, ?_, ?_, ?_, ?_, ?_, ?_, ?_, ?_, ?_⟩
  · rw [hctl, hDl, hI.ctrl_len]
  · rw [hgd_c 0 (by rw [hI.ctrl_len]; omega), hI.ctrl_zero]
  · intro j hj
    rw [hctl] at hj
    by_cases hjl : j < S.control.length
    · rw [hgd_c j hjl, htrl]
      exact le_trans (hI.ctrl_le j hjl) (by omega)
    · have hje : j = S.control.length := by omega
      subst hje
      rw [hgd_cl, htrl]
      omega
  · intro j k2 h1 h2 h3
    rw [hctl] at h3
    by_cases hk2 : k2 < S.control.length
    · rw [hgd_c j (by omega), hgd_c k2 hk2]
      exact hI.ctrl_strict j k2 h1 h2 hk2
    · have hk2e : k2 = S.control.length := by omega
      subst hk2e
      rw [hgd_c j h2, hgd_cl]
      exact (hI.dec_at j h1 h2).1
  · intro k2 hk2 i hi
    rw [hctl] at hk2
    by_cases hkl : k2 < S.control.length
    · rw [hgd_c k2 hkl] at hi
      have hib : i < S.trail.length := lt_of_lt_of_le hi (hI.ctrl_le k2 hkl)
      rw [hgetD_tr i hib, hlev_pres _ (hfresh _ (hmem_tr i hib))]
      exact hI.before_lt k2 hkl i hi
    · have hke : k2 = S.control.length := by omega
      subst hke
      rw [hgd_cl] at hi
      rw [hgetD_tr i hi, hlev_pres _ (hfresh _ (hmem_tr i hi))]
      have h4 := hI.lvl_le _ (hmem_tr i hi)
      rw [hI.ctrl_len]
      omega
  · intro k2 h1 hk2
    rw [hctl] at hk2
    by_cases hkl : k2 < S.control.length
    · rw [hgd_c k2 hkl]
      obtain ⟨d1, d2⟩ := hI.dec_at k2 h1 hkl
      constructor
      · rw [htrl]
        omega
      · rw [hgetD_tr _ d1, hlev_pres _ (hfresh _ (hmem_tr _ d1))]
        exact d2
    · have hke : k2 = S.control.length := by omega
      subst hke
      rw [hgd_cl]
      constructor
      · rw [htrl]
        omega
      · have hgl : (decideOp S lit).trail.getD S.trail.length 0 = lit := by
          rw [hDtr]
          exact getD_append_len _ _ _
        rw [hgl, hlev_new, hI.ctrl_len]
  · intro l hl
    rw [hDtr] at hl
    rcases List.mem_append.mp hl with h | h
    · rw [hlev_pres _ (hfresh _ h), hDl]
      exact le_trans (hI.lvl_le l h) (by omega)
    · rw [List.mem_singleton] at h
      subst h
      rw [hlev_new, hDl]
  · intro l hl
    rw [hDtr] at hl
    rcases List.mem_append.mp hl with h | h
    · rw [hval_pres _ (hfresh _ h)]
      exact hI.assigned l h
    · rw [List.mem_singleton] at h
      subst h
      exact hval_new
  · rw [hDtr, List.map_append]
    apply List.Nodup.append hI.nodup (List.nodup_singleton _)
    intro a ha hb
    rw [List.mem_singleton] at hb
    subst hb
    rcases List.mem_map.mp ha with ⟨x, hx, hxa⟩
    exact hfresh x hx hxa
  · rw [hDva, List.length_set, hDmv]
    exact hI.vals_len
  · rw [hDlv, List.length_set, hDmv]
    exact hI.lvls_len
  · intro v hvv
    rw [hDva] at hvv
    rcases List.mem_or_eq_of_mem_set hvv with h | h
    · exact hI.vals_range v h
    · subst h
      split <;> norm_num
  · intro c hc l hl
    exact hI.cls_ok c hc l hl
  · intro l hl
    rw [hDtr] at hl
    rcases List.mem_append.mp hl with h | h
    · rw [hDmv]
      exact hI.trail_ok l h
    · rw [List.mem_singleton] at h
      subst h
      rw [hDmv]
      exact hv

theorem analyzeOutcome_inv (S : Solver) (learnt : List Int) (jump : Nat)
    (hI : Inv S) (hj : jump ≤ S.level)
    (hlits : ∀ l ∈ learnt, l.natAbs ≤ S.max_var.toNat)
    (hhead : learnt ≠ [] → valD (backtrack S jump) (learnt.getD 0 0) = 0) :
    Inv (analyzeOutcome S learnt jump) := by
  have hB := backtrack_inv S jump hI hj
  have hBmv : (backtrack S jump).max_var = S.max_var := backtrack_max_var S jump
  cases learnt with
  | nil =>
    apply inv_of_eq hI
    exacts [⟨rfl, rfl, rfl, rfl, rfl, rfl⟩, hI.cls_ok]
  | cons l0 tl =>
    cases tl with
    | nil =>
      apply assign_inv _ _ _ hB ?_ ?_
      · exact hhead (by simp)
      · show l0.natAbs ≤ (backtrack S jump).max_var.toNat
        rw [hBmv]
        exact hlits l0 (by simp)
    | cons l1 rest =>
      have hS2 : Inv { (backtrack S jump) with clauses :=
          ((backtrack S jump).clauses
            ++ [⟨l0 :: l1 :: rest, true, glueOf S (l0 :: l1 :: rest), false⟩]) } := by
        apply inv_of_eq hB
        · exact ⟨rfl, rfl, rfl, rfl, rfl, rfl⟩
        · intro c hc l hl
          show l.natAbs ≤ (backtrack S jump).max_var.toNat
          rcases List.mem_append.mp hc with h | h
          · exact hB.cls_ok c h l hl
          · rw [List.mem_singleton] at h
            subst h
            rw [hBmv]
            exact hlits l hl
      apply assign_inv _ _ _ ?_ ?_ ?_
      · apply inv_of_eq hS2
        · exact ⟨rfl, rfl, rfl, rfl, rfl, rfl⟩
        · exact hS2.cls_ok
      · exact hhead (by simp)
      · show l0.natAbs ≤ (backtrack S jump).max_var.toNat
        rw [hBmv]
        exact hlits l0 (by simp)

theorem markGarbage_inv (S : Solver) (ci : Nat) (hI : Inv S) :
    Inv (markGarbage S ci) := by
  apply inv_of_eq hI
  · exact ⟨rfl, rfl, rfl, rfl, rfl, rfl⟩
  · intro c hc l hl
    rcases List.mem_or_eq_of_mem_set hc with h | h
    · exact hI.cls_ok c h l hl
    · subst h
      exact getD_clause_ok S ci hI.cls_ok l hl

theorem flushStep_inv (S : Solver) (ci : Nat) (hI : Inv S) :
    Inv (flushStep S ci) := by
  simp only [flushStep]
  split
  · exact hI
  · split
    · exact markGarbage_inv S ci hI
    · have hS1 : Inv { S with clauses := (S.clauses.set ci
          { (S.clauses.getD ci default) with lits :=
            ((S.clauses.getD ci default).lits.filter (fun l => fixedD S l != -1)) }) } := by
        apply inv_of_eq hI
        · exact ⟨rfl, rfl, rfl, rfl, rfl, rfl⟩
        · intro c hc l hl
          rcases List.mem_or_eq_of_mem_set hc with h | h
          · exact hI.cls_ok c h l hl
          · subst h
            exact getD_clause_ok S ci hI.cls_ok l (List.mem_of_mem_filter hl)
      split
      · apply inv_of_eq (markGarbage_inv _ ci hS1)
        · exact ⟨rfl, rfl, rfl, rfl, rfl, rfl⟩
        · exact (markGarbage_inv _ ci hS1).cls_ok
      · rename_i l heq
        split
        · rename_i hval0
          apply assignRoot_inv _ _ (markGarbage_inv _ ci hS1) hval0 ?_
          have hlm : l ∈ (S.clauses.getD ci default).lits := by
            have h2 : l ∈ (S.clauses.getD ci default).lits.filter
                (fun l => fixedD S l != -1) := by
              rw [heq]
              exact List.mem_singleton_self l
            exact List.mem_of_mem_filter h2
          exact getD_clause_ok S ci hI.cls_ok l hlm
        · exact markGarbage_inv _ ci hS1
      · exact hS1

theorem setupWatches_inv (S : Solver) (hI : Inv S) : Inv (setupWatches S) := by
  apply inv_of_eq hI
  exacts [⟨rfl, rfl, rfl, rfl, rfl, rfl⟩, hI.cls_ok]

theorem foldl_flushStep_inv (ls : List Nat) (S : Solver) (hI : Inv S) :
    Inv (ls.foldl flushStep S) := by
  induction ls generalizing S with
  | nil => exact hI
  | cons x xs ih => exact ih (flushStep S x) (flushStep_inv S x hI)

theorem foldl_markGarbage_inv (ls : List Nat) (S : Solver) (hI : Inv S) :
    Inv (ls.foldl markGarbage S) := by
  induction ls generalizing S with
  | nil => exact hI
  | cons x xs ih => exact ih (markGarbage S x) (markGarbage_inv S x hI)

theorem reduceOp_inv (S : Solver) (useless : List Nat) (hI : Inv S) :
    Inv (reduceOp S useless) :=
  setupWatches_inv _ (foldl_markGarbage_inv useless _
    (foldl_flushStep_inv (List.range S.clauses.length) S hI))

theorem initState_inv (n : Nat) (cls : List Clause)
    (h : ∀ c ∈ cls, ∀ l ∈ c.lits, l.natAbs ≤ n) : Inv (initState n cls) := by
  apply setupWatches_inv
  have hn : ((n : Int)).toNat = n := Int.toNat_ofNat n
  refine ⟨?_, ?_, ?_, ?_, ?_, ?_, ?_, ?_, ?_, ?_, ?_, ?_, ?_, ?_⟩
  · rfl
  · rfl
  · intro k hk
    have hk0 : k = 0 := by
      simp only [List.length_cons, List.length_nil] at hk
      omega
    subst hk0
    exact Nat.le_refl 0
  · intro j k h1 h2 h3
    simp only [List.length_cons, List.length_nil] at h3
    omega
  · intro k hk i hi
    have hk0 : k = 0 := by
      simp only [List.length_cons, List.length_nil] at hk
      omega
    subst hk0
    have h2 : (([0] : List Nat)).getD 0 0 = 0 := rfl
    rw [h2] at hi
    omega
  · intro k h1 h2
    simp only [List.length_cons, List.length_nil] at h2
    omega
  · intro l hl
    cases hl
  · intro l hl
    cases hl
  · exact List.nodup_nil
  · show (List.replicate (n + 1) (0 : Int)).length = ((n : Int)).toNat + 1
    rw [List.length_replicate, hn]
  · show (List.replicate (n + 1) (0 : Nat)).length = ((n : Int)).toNat + 1
    rw [List.length_replicate, hn]
  · intro v hv
    have h2 := List.eq_of_mem_replicate hv
    right
    left
    exact h2
  · intro c hc l hl
    show l.natAbs ≤ ((n : Int)).toNat
    rw [hn]
    exact h c hc l hl
  · intro l hl
    cases hl

theorem step_inv (S S' : Solver) (h : Step S S') (hI : Inv S) : Inv S' := by
  cases h with
  | prop fuel b hp => exact propagateAux_inv fuel S b S' hI hp
  | analyze learnt jump h1 h2 h3 =>
    exact analyzeOutcome_inv S learnt jump hI h1 h2 h3
  | bt k hk => exact backtrack_inv S k hI hk
  | restart k hk => exact backtrack_inv S k hI hk
  | reduce useless hr => exact reduceOp_inv S useless hI
  | decide lit h1 h2 => exact decideOp_inv S lit hI h1 h2

theorem reachable_inv (S : Solver) (h : Reachable S) : Inv S := by
  induction h with
  | base n cls hc => exact initState_inv n cls hc
  | step S1 S2 hr hs ih => exact step_inv S1 S2 hs ih

/-- C8: in every reachable solver state the control stack has exactly one
entry per decision level including the root (control.size () equals
level + 1), and entry `k` records the trail position at which level `k`
began: entry 0 is the root at position 0, every literal before entry `k`
was assigned at a level below `k`, and for `k ≥ 1` the literal sitting at
entry `k`'s position is the first literal of level `k`. -/
theorem control_stack_records_levels (S : Solver) (h : Reachable S) :
    S.control.length = S.level + 1 ∧
    S.control.getD 0 0 = 0 ∧
    ∀ k, k < S.control.length →
      (∀ i, i < S.control.getD k 0 → levelOf S (S.trail.getD i 0) < k) ∧
      (1 ≤ k → S.control.getD k 0 < S.trail.length ∧
        levelOf S (S.trail.getD (S.control.getD k 0) 0) = k) := by
  have hI := reachable_inv S h
  exact ⟨hI.ctrl_len, hI.ctrl_zero,
    fun k hk => ⟨hI.before_lt k hk, fun h1 => hI.dec_at k h1 hk⟩⟩

/-- C8 witness: the theorem instantiated at the initial state with two
variables and no clauses. -/
theorem control_stack_records_levels_witness :
    (initState 2 []).control.length = (initState 2 []).level + 1 ∧
    (initState 2 []).control.getD 0 0 = 0 ∧
    ∀ k, k < (initState 2 []).control.length →
      (∀ i, i < (initState 2 []).control.getD k 0 →
        levelOf (initState 2 []) ((initState 2 []).trail.getD i 0) < k) ∧
      (1 ≤ k → (initState 2 []).control.getD k 0
          < (initState 2 []).trail.length ∧
        levelOf (initState 2 [])
          ((initState 2 []).trail.getD ((initState 2 []).control.getD k 0) 0)
          = k) :=
  control_stack_records_levels (initState 2 [])
    (Reachable.base 2 [] (by intro c hc; cases hc))

end CaDiCaL
